import Mathlib

/-!
Shallow embedding of the EREN_Assist memory/knowledge/style subsystem
(`ki-kumpel/memory/knowledge_builder.py`, `ki-kumpel/memory/memory_db.py`,
`ki-kumpel/memory/style_profile.py`, `ki-kumpel/core/router.py`) together
with theorems settling the specification claims about it.

Text is modelled as `List Char`.  Python string operations (`strip`,
`lower`, `re.sub`, `re.split`, `re.findall`, `str.split`, `str.replace`)
are translated below; recursive scanners take an explicit fuel argument
(always called with fuel equal to the input length, which is enough
because every step consumes at least one character) so that all
definitions reduce in the kernel.
-/

namespace ErenAssist

abbrev Str := List Char

/-- Coerce a Lean string literal to the `List Char` model. -/
def S (s : String) : Str := s.data

/-- Python `str.strip` whitespace class (ASCII subset relevant here). -/
def pyIsSpace (c : Char) : Bool :=
  c == ' ' || c == '\t' || c == '\n' || c == '\r' || c == '\x0b' || c == '\x0c'

/-- Python `str.strip()`: drop leading and trailing whitespace. -/
def pyStrip (s : Str) : Str :=
  ((s.dropWhile pyIsSpace).reverse.dropWhile pyIsSpace).reverse

/-- Python `str.lower()` on one character (ASCII letters plus the German
umlauts appearing in the source's string constants). -/
def pyLowerChar (c : Char) : Char :=
  if 'A' ≤ c ∧ c ≤ 'Z' then Char.ofNat (c.toNat + 32)
  else if c = 'Ä' then 'ä'
  else if c = 'Ö' then 'ö'
  else if c = 'Ü' then 'ü'
  else c

/-- Python `str.lower()`. -/
def pyLowerStr (s : Str) : Str := s.map pyLowerChar

/-- Python `str.upper()` on one character (same character classes). -/
def pyUpperChar (c : Char) : Char :=
  if 'a' ≤ c ∧ c ≤ 'z' then Char.ofNat (c.toNat - 32)
  else if c = 'ä' then 'Ä'
  else if c = 'ö' then 'Ö'
  else if c = 'ü' then 'Ü'
  else c

/-- Python `str.upper()`. -/
def pyUpperStr (s : Str) : Str := s.map pyUpperChar

/-- Scanner for `re.sub(r"\s+", " ", text)`: every maximal whitespace run
becomes a single space. -/
def collapseGo : Nat → Str → Str
  | 0, _ => []
  | _, [] => []
  | fuel + 1, c :: rest =>
    if pyIsSpace c then ' ' :: collapseGo fuel (rest.dropWhile pyIsSpace)
    else c :: collapseGo fuel rest

/-- Model of `re.sub(r"\s+", " ", text)` used by `_normalise`. -/
def collapseWs (s : Str) : Str := collapseGo s.length s

/-- Model of `knowledge_builder._normalise`, which is
`re.sub(r"\s+", " ", text.strip()).lower()`. -/
def normalise (text : Str) : Str := pyLowerStr (collapseWs (pyStrip text))

/-- Scanner for `re.split(r"[.!?]\s+", message)`: split at a sentence
punctuation character followed by a (greedily consumed) whitespace run;
the matched separator is removed. -/
def sentSplitGo : Nat → Str → Str → List Str
  | 0, _, acc => [acc.reverse]
  | _, [], acc => [acc.reverse]
  | fuel + 1, c :: rest, acc =>
    if (c == '.' || c == '!' || c == '?') &&
        (match rest.head? with | some d => pyIsSpace d | none => false) then
      acc.reverse :: sentSplitGo fuel (rest.dropWhile pyIsSpace) []
    else sentSplitGo fuel rest (c :: acc)

/-- Model of `knowledge_builder._extract_sentences`. -/
def extractSentences (message : Str) : List Str :=
  let m := pyStrip message
  if m = [] then []
  else
    let sentences := sentSplitGo m.length m []
    if sentences.length = 1 then [m]
    else (sentences.map pyStrip).filter (fun x => decide (x ≠ []))

/-- Word characters of `re.findall(r"\w+", ...)` (ASCII alphanumerics,
underscore, and the German letters used by the source's constants). -/
def isWordChar (c : Char) : Bool :=
  c.isAlphanum || c == '_' || c == 'ä' || c == 'ö' || c == 'ü' ||
    c == 'Ä' || c == 'Ö' || c == 'Ü' || c == 'ß'

/-- Scanner for `re.findall(r"\w+", s)`: maximal word-character runs. -/
def tokensGo : Nat → Str → List Str
  | 0, _ => []
  | _, [] => []
  | fuel + 1, c :: rest =>
    if isWordChar c then
      ((c :: rest).takeWhile isWordChar) :: tokensGo fuel ((c :: rest).dropWhile isWordChar)
    else tokensGo fuel rest

/-- Model of `re.findall(r"\w+", s)`. -/
def pyTokens (s : Str) : List Str := tokensGo s.length s

/-- Scanner for Python `str.split(sep)` with non-empty separator. -/
def pySplitGo (sep : Str) : Nat → Str → Str → List Str
  | 0, _, acc => [acc.reverse]
  | _, [], acc => [acc.reverse]
  | fuel + 1, c :: rest, acc =>
    if sep.isPrefixOf (c :: rest) then
      acc.reverse :: pySplitGo sep fuel ((c :: rest).drop sep.length) []
    else pySplitGo sep fuel rest (c :: acc)

/-- Python `str.split(sep)` (for empty `sep` Python raises; the source
only splits on `"\n\n"`, so that case is irrelevant and kept as identity). -/
def pySplit (sep s : Str) : List Str :=
  if sep = [] then [s] else pySplitGo sep s.length s []

/-- Scanner for Python `str.replace(old, new)` with non-empty `old`:
left-to-right, non-overlapping replacement of every occurrence. -/
def pyReplaceGo (pat rep : Str) : Nat → Str → Str
  | 0, _ => []
  | _, [] => []
  | fuel + 1, c :: rest =>
    if pat.isPrefixOf (c :: rest) then
      rep ++ pyReplaceGo pat rep fuel ((c :: rest).drop pat.length)
    else c :: pyReplaceGo pat rep fuel rest

/-- Python `str.replace(old, new)` (empty `old`, unused by the source,
kept as identity). -/
def pyReplace (pat rep s : Str) : Str :=
  if pat = [] then s else pyReplaceGo pat rep s.length s

/-- Python substring containment `needle in hay`. -/
def strContains (needle : Str) : Str → Bool
  | [] => needle.isEmpty
  | c :: rest => needle.isPrefixOf (c :: rest) || strContains needle rest

/-- Python `str.endswith((".", "!", "?"))`. -/
def endsWithPunct (s : Str) : Bool :=
  match s.getLast? with
  | some c => c == '.' || c == '!' || c == '?'
  | none => false

/-! ## Data model (`memory_db.py`) -/

/-- Row of the `interactions` table (dataclass `Interaction`). -/
structure Interaction where
  ts : Str
  role : Str
  content : Str
  meta : Option Str
deriving DecidableEq

/-- Row of the `facts` table (dataclass `Fact`). -/
structure Fact where
  ts : Str
  source : Str
  fact : Str
  importance : Int
deriving DecidableEq

/-- The SQLite database state: both tables in rowid (insertion) order,
plus a logical clock standing for `datetime.utcnow()` (the timestamps
produced by successive writes are distinct and increasing). -/
structure DB where
  interactions : List Interaction
  facts : List Fact
  clock : Nat
deriving DecidableEq

/-- Rendering of the logical clock as a timestamp string
(abstracting `datetime.utcnow().isoformat()`). -/
def tsRender (n : Nat) : Str := Nat.toDigits 10 n

/-- Model of `MemoryDB.add_interaction`: INSERT a row with a fresh timestamp. -/
def add_interaction (db : DB) (role content : Str) (meta : Option Str) : DB :=
  { db with
    interactions := db.interactions ++ [⟨tsRender db.clock, role, content, meta⟩],
    clock := db.clock + 1 }

/-- Model of `MemoryDB.add_fact`: INSERT a row with a fresh timestamp. -/
def add_fact (db : DB) (source fct : Str) (importance : Int) : DB :=
  { db with
    facts := db.facts ++ [⟨tsRender db.clock, source, fct, importance⟩],
    clock := db.clock + 1 }

/-- Rows of a table paired with their rowids (AUTOINCREMENT ids are the
insertion positions). -/
def withIds : Nat → List Fact → List (Nat × Fact)
  | _, [] => []
  | n, f :: fs => (n, f) :: withIds (n + 1) fs

/-- Stable insertion placing `x` before the first element whose key is
not larger — together with `pySortDesc` this is exactly Python's stable
`list.sort(key=..., reverse=True)` order. -/
def insDesc {α : Type} (key : α → Int) (x : α) : List α → List α
  | [] => [x]
  | y :: ys => if key y ≤ key x then x :: y :: ys else y :: insDesc key x ys

/-- Stable descending sort by an integer key (Python
`sort(key=..., reverse=True)`: descending by key, ties in original order). -/
def pySortDesc {α : Type} (key : α → Int) : List α → List α
  | [] => []
  | x :: xs => insDesc key x (pySortDesc key xs)

/-- Model of `MemoryDB.get_facts`, keeping rowids: a SELECT over facts
whose importance is at least the bound, ordered by importance DESC then
id DESC — the secondary id DESC order is the reversal of insertion
order, and the primary importance DESC order is a stable sort on it. -/
def factsWithId (db : DB) (minImp : Int) : List (Nat × Fact) :=
  pySortDesc (fun p => p.2.importance)
    (((withIds 0 db.facts).filter (fun p => decide (minImp ≤ p.2.importance))).reverse)

/-- Model of `MemoryDB.get_facts` (rows as returned to Python, without rowids). -/
def get_facts (db : DB) (minImp : Int) : List Fact :=
  (factsWithId db minImp).map (fun p => p.2)

/-- Model of `MemoryDB.get_recent_interactions`: `ORDER BY id DESC LIMIT ?`. -/
def get_recent_interactions (db : DB) (limit : Nat) : List Interaction :=
  (db.interactions.reverse).take limit

/-! ## Knowledge builder (`knowledge_builder.py`) -/

/-- The `_IMPORTANT_PHRASES` constant. -/
def importantPhrases : List Str :=
  [S "muss", S "müssen", S "soll", S "sollen", S "wichtig", S "immer"]

/-- The values of `_KEYWORD_HINTS` in dict (insertion) order; the keys
are never consulted by `refresh_facts`. -/
def keywordTemplates : List Str :=
  [S "CAD-Fälle müssen vor 10 Uhr gemeldet werden.",
   S "Techniker-Mails an dk-tech.eu enthalten obligatorische Einsatzdetails.",
   S "Dispatch-Kommunikation erfolgt präzise und mit klaren Deadlines.",
   S "Regelmäßige Backups der Projektdaten sind Pflicht."]

/-- The salience test of `refresh_facts`:
`any(phrase in sentence.lower() for phrase in _IMPORTANT_PHRASES)`. -/
def isSalient (sentence : Str) : Bool :=
  importantPhrases.any (fun p => strContains p (pyLowerStr sentence))

/-- The source tag an extracted fact gets: the word interaction, a colon,
and the timestamp of the originating interaction. -/
def interactionSource (its : Str) : Str := S "interaction:" ++ its

/-- The dedup index built at the top of `refresh_facts`: the keys of
the dict comprehension over normalised fact texts at the top of the
method body. -/
def dedupIndex (db : DB) : List Str :=
  (get_facts db 1).map (fun f => normalise f.fact)

/-- State threaded through `refresh_facts`: the dedup key set, the
database, and the list of newly inserted facts. -/
structure RState where
  seen : List Str
  db : DB
  newFacts : List Fact

/-- Inner loop of `refresh_facts` over the sentences of one interaction. -/
def processSentences (its : Str) : List Str → RState → RState
  | [], st => st
  | sentence :: rest, st =>
    if isSalient sentence then
      let n := normalise sentence
      if n ∈ st.seen then processSentences its rest st
      else
        processSentences its rest
          { seen := n :: st.seen,
            db := add_fact st.db (interactionSource its) (pyStrip sentence) 2,
            newFacts := st.newFacts ++ [⟨S "", interactionSource its, pyStrip sentence, 2⟩] }
    else processSentences its rest st

/-- Outer loop of `refresh_facts` over `iter_interactions()`
(insertion order). -/
def processInteractions : List Interaction → RState → RState
  | [], st => st
  | i :: rest, st =>
    processInteractions rest (processSentences i.ts (extractSentences i.content) st)

/-- Final loop of `refresh_facts` over `_KEYWORD_HINTS.items()`. -/
def processTemplates : List Str → RState → RState
  | [], st => st
  | t :: rest, st =>
    let n := normalise t
    if n ∈ st.seen then processTemplates rest st
    else
      processTemplates rest
        { seen := n :: st.seen,
          db := add_fact st.db (S "heuristic") t 1,
          newFacts := st.newFacts ++ [⟨S "", S "heuristic", t, 1⟩] }

/-- Model of `KnowledgeBuilder.refresh_facts`, returning the list of newly
inserted facts and the updated database. -/
def refresh_facts (db : DB) : List Fact × DB :=
  let st := processTemplates keywordTemplates
    (processInteractions db.interactions { seen := dedupIndex db, db := db, newFacts := [] })
  (st.newFacts, st.db)

/-- The per-fact score of `KnowledgeBuilder.get_relevant_facts`:
2 per word token of the fact that occurs in the lower-cased query,
plus 1 for interaction-derived facts, plus the fact's importance. -/
def scoreFact (queryLower : Str) (f : Fact) : Int :=
  2 * (((pyTokens (pyLowerStr f.fact)).countP (fun t => strContains t queryLower) : Nat) : Int)
  + (if (S "interaction").isPrefixOf f.source then 1 else 0)
  + f.importance

/-- The `scored` list built by the loop of `get_relevant_facts` (rowids
kept to identify facts): facts with score 0 are dropped (`if score:`). -/
def scoredOf (qL : Str) (l : List (Nat × Fact)) : List (Int × Nat × Fact) :=
  l.filterMap
    (fun p => if scoreFact qL p.2 ≠ 0 then some (scoreFact qL p.2, p.1, p.2) else none)

/-- The scored-and-sorted fact list of `get_relevant_facts`:
`scored.sort(key=lambda item: item[0], reverse=True)` — a stable
descending sort by score. -/
def rankedFacts (db : DB) (query : Str) : List (Int × Nat × Fact) :=
  pySortDesc (fun p => p.1) (scoredOf (pyLowerStr query) (factsWithId db 1))

/-- Model of `KnowledgeBuilder.get_relevant_facts`. -/
def get_relevant_facts (db : DB) (query : Str) (limit : Nat) : List Str :=
  ((rankedFacts db query).take limit).map (fun p => p.2.2.fact)

/-! ## Style (`style_profile.py`) -/

/-- Dataclass `StyleProfile`. -/
structure StyleProfile where
  rules : List (Str × Str)
  examples : List Str
  greeting : Str
  closing : Str
deriving DecidableEq

/-- Model of newline-join, as in Python join with a newline separator. -/
def joinNl : List Str → Str
  | [] => []
  | [x] => x
  | x :: y :: rest => x ++ '\n' :: joinNl (y :: rest)

/-- The paragraph transform inside `apply_style`: the two lexical
substitutions followed by ensuring terminal punctuation. -/
def adjustPara (para : Str) : Str :=
  let p1 := pyReplace (S "ich denke") (S "ich empfehle") para
  let p2 := pyReplace (S "vielleicht") (S "bitte") p1
  if endsWithPunct p2 then p2 else p2 ++ S "."

/-- Model of `style_profile.apply_style`. -/
def apply_style (rawText : Str) (profile : StyleProfile) : Str :=
  let body := pyStrip rawText
  if body = [] then profile.greeting ++ S "\n\n" ++ profile.closing
  else
    let paragraphs0 := ((pySplit (S "\n\n") body).map pyStrip).filter (fun p => decide (p ≠ []))
    let paragraphs := if paragraphs0 = [] then [pyReplace (S "\n") (S " ") body] else paragraphs0
    joinNl ([profile.greeting, []] ++ paragraphs.map adjustPara ++ [[], profile.closing])

/-! ## Router (`core/router.py`) -/

/-- One line of `AssistantRouter._load_context`: the f-string rendering
the upper-cased role, the timestamp in parentheses, a colon, and the
content. -/
def formatLine (i : Interaction) : Str :=
  pyUpperStr i.role ++ S " (" ++ i.ts ++ S "): " ++ i.content

/-- Model of `AssistantRouter._load_context`: the 30 most recent interactions,
reversed to chronological order and formatted. -/
def load_context (db : DB) : List Str :=
  ((get_recent_interactions db 30).reverse).map formatLine

/-- Failure of the external model call (`llm_client.ask_text` raising:
timeout, network failure, malformed response). -/
inductive LLMError
  | timeout
  | network
  | malformed
deriving DecidableEq

/-- Model of `AssistantRouter.handle_text`.  The external model is an oracle from
(question, context lines, facts) to an answer or an error.  The source
has no exception handler, so a model-call error propagates to the caller
(first component `.error`); the database — mutated in place in Python —
is returned alongside in either case. -/
def handle_text (llm : Str → List Str → List Str → Except LLMError Str)
    (profile : StyleProfile) (db : DB) (question : Str) : Except LLMError Str × DB :=
  let db1 := add_interaction db (S "user") question none
  let ctx := load_context db1
  let db2 := (refresh_facts db1).2
  let facts := get_relevant_facts db2 question 5
  match llm question ctx facts with
  | .error e => (.error e, db2)
  | .ok answer => (.ok (apply_style answer profile), add_interaction db2 (S "assistant") (apply_style answer profile) none)

/-! ## Persistence failure model (`memory_db.py` has no exception
handling: a failing SQLite write raises out of the store methods) -/

/-- Failure of a durable write. -/
inductive DBError
  | writeFailed
deriving DecidableEq

/-- Model of `MemoryDB.add_interaction` with the underlying write outcome made
explicit: the method body is a bare `cursor.execute`/`commit`, so on a
failed write the exception propagates to the caller. -/
def add_interactionE (db : DB) (writeOk : Bool) (role content : Str)
    (meta : Option Str) : Except DBError DB :=
  if writeOk then .ok (add_interaction db role content meta) else .error .writeFailed

/-- Model of `MemoryDB.add_fact` with the underlying write outcome made explicit. -/
def add_factE (db : DB) (writeOk : Bool) (source fct : Str) (importance : Int) :
    Except DBError DB :=
  if writeOk then .ok (add_fact db source fct importance) else .error .writeFailed

/-- Variant of `processSentences` where `add_fact` can fail: `refresh_facts` has no
`try`, so a raised write error aborts the whole loop.  `n` counts the
writes attempted so far; `oracle n` is the outcome of write `n`. -/
def processSentencesE (oracle : Nat → Bool) (its : Str) :
    List Str → Nat → RState → Except DBError (Nat × RState)
  | [], n, st => .ok (n, st)
  | sentence :: rest, n, st =>
    if isSalient sentence then
      let nm := normalise sentence
      if nm ∈ st.seen then processSentencesE oracle its rest n st
      else
        match add_factE st.db (oracle n) (interactionSource its) (pyStrip sentence) 2 with
        | .error e => .error e
        | .ok db' =>
          processSentencesE oracle its rest (n + 1)
            { seen := nm :: st.seen, db := db',
              newFacts := st.newFacts ++ [⟨S "", interactionSource its, pyStrip sentence, 2⟩] }
    else processSentencesE oracle its rest n st

/-- Variant of `processInteractions` with fallible writes. -/
def processInteractionsE (oracle : Nat → Bool) :
    List Interaction → Nat → RState → Except DBError (Nat × RState)
  | [], n, st => .ok (n, st)
  | i :: rest, n, st =>
    match processSentencesE oracle i.ts (extractSentences i.content) n st with
    | .error e => .error e
    | .ok (n', st') => processInteractionsE oracle rest n' st'

/-- Variant of `processTemplates` with fallible writes. -/
def processTemplatesE (oracle : Nat → Bool) :
    List Str → Nat → RState → Except DBError (Nat × RState)
  | [], n, st => .ok (n, st)
  | t :: rest, n, st =>
    let nm := normalise t
    if nm ∈ st.seen then processTemplatesE oracle rest n st
    else
      match add_factE st.db (oracle n) (S "heuristic") t 1 with
      | .error e => .error e
      | .ok db' =>
        processTemplatesE oracle rest (n + 1)
          { seen := nm :: st.seen, db := db',
            newFacts := st.newFacts ++ [⟨S "", S "heuristic", t, 1⟩] }

/-- Model of `KnowledgeBuilder.refresh_facts` with fallible writes. -/
def refresh_factsE (oracle : Nat → Bool) (db : DB) : Except DBError (List Fact × DB) :=
  match processInteractionsE oracle db.interactions 0
      { seen := dedupIndex db, db := db, newFacts := [] } with
  | .error e => .error e
  | .ok (n, st) =>
    match processTemplatesE oracle keywordTemplates n st with
    | .error e => .error e
    | .ok (_, st') => .ok (st'.newFacts, st'.db)

/-- The empty database (fresh schema). -/
def emptyDB : DB := ⟨[], [], 0⟩

/-- The database operations a caller can interleave for the fact-table
invariant: appending interactions and running the knowledge refresh. -/
inductive Op
  | interactionOp (role content : Str) (meta : Option Str)
  | refreshOp

/-- Apply one operation. -/
def applyOp (db : DB) : Op → DB
  | .interactionOp role content meta => add_interaction db role content meta
  | .refreshOp => (refresh_facts db).2

/-- Run a sequence of operations from the empty database. -/
def runOps (ops : List Op) : DB := ops.foldl applyOp emptyDB

/-- Fold of `AssistantRouter._record_interaction`-style appends used to
state the context-window theorem. -/
def runAdds (db : DB) (rs : List (Str × Str)) : DB :=
  rs.foldl (fun d rc => add_interaction d rc.1 rc.2 none) db

/-- The rows a sequence of `add_interaction` calls appends, given the
clock value at the start. -/
def appendedRows : Nat → List (Str × Str) → List Interaction
  | _, [] => []
  | clk, (r, c) :: rest => ⟨tsRender clk, r, c, none⟩ :: appendedRows (clk + 1) rest

/-- Index of the first element carrying identifier `i` (the length of
the list when absent): the rank position of a fact in a ranked list. -/
def idxOfId {α : Type} (ids : α → Nat) (i : Nat) : List α → Nat
  | [] => 0
  | y :: ys => if ids y = i then 0 else idxOfId ids i ys + 1

/-- A dedup key is accounted for: some stored fact visible to
`get_facts()` (importance at least 1) normalises to it. -/
def seenSpec (db : DB) (s : Str) : Prop :=
  ∃ f, f ∈ db.facts ∧ 1 ≤ f.importance ∧ normalise f.fact = s

/-- The running dedup key set of `refresh_facts` coincides with the
normalised texts of the visible stored facts. -/
def SeenOK (st : RState) : Prop :=
  ∀ s, s ∈ st.seen ↔ seenSpec st.db s

/-- Invariant of the facts table under the modelled operations: every
row has importance at least 1, and no two rows share a normalised text. -/
def FactsOK (db : DB) : Prop :=
  (∀ f ∈ db.facts, 1 ≤ f.importance) ∧
    db.facts.Pairwise (fun f g => normalise f.fact ≠ normalise g.fact)

/-! ## Helper lemmas for the ranking pipeline -/

theorem nodup_middle_not_mem (l₁ l₂ : List Nat) (a : Nat)
    (h : (l₁ ++ a :: l₂).Nodup) : a ∉ l₁ ∧ a ∉ l₂ := by
  rw [List.nodup_append] at h
  rcases h with ⟨_, h2, hdisj⟩
  rcases List.nodup_cons.mp h2 with ⟨ha2, _⟩
  exact ⟨fun ha1 => hdisj ha1 (List.mem_cons_self _ _), ha2⟩

theorem mem_withIds_bounds :
    ∀ (n : Nat) (l : List Fact) (p : Nat × Fact),
      p ∈ withIds n l → n ≤ p.1 ∧ p.1 < n + l.length := by
  intro n l
  induction l generalizing n with
  | nil => intro p h; simp [withIds] at h
  | cons f fs ih =>
    intro p h
    rcases List.mem_cons.mp h with rfl | h
    · simp
    · rcases ih (n + 1) p h with ⟨h1, h2⟩
      refine ⟨by omega, ?_⟩
      simp only [List.length_cons]
      omega

theorem scoreFact_ge_importance (qL : Str) (f : Fact) :
    f.importance ≤ scoreFact qL f := by
  unfold scoreFact
  have h1 : (0 : Int)
      ≤ 2 * (((pyTokens (pyLowerStr f.fact)).countP (fun t => strContains t qL) : Nat) : Int) := by
    positivity
  by_cases hp : (S "interaction").isPrefixOf f.source
  · simp only [hp, if_true]
    omega
  · simp only [hp, if_false]
    omega

theorem scoreFact_shift (qL : Str) (f : Fact) (k : Int) :
    scoreFact qL { f with importance := f.importance + k } = scoreFact qL f + k := by
  unfold scoreFact
  simp only []
  ring

theorem countP_scoredOf (qL : Str) (Q : Int × Nat × Fact → Bool) :
    ∀ l : List (Nat × Fact),
      (scoredOf qL l).countP Q
        = l.countP (fun p =>
            decide (scoreFact qL p.2 ≠ 0) && Q (scoreFact qL p.2, p.1, p.2)) := by
  intro l
  induction l with
  | nil => rfl
  | cons p rest ih =>
    by_cases h : scoreFact qL p.2 ≠ 0
    · have hcons : scoredOf qL (p :: rest)
          = (scoreFact qL p.2, p.1, p.2) :: scoredOf qL rest := by
        simp [scoredOf, List.filterMap_cons, h]
      rw [hcons, List.countP_cons, ih, List.countP_cons]
      simp [h]
    · have hcons : scoredOf qL (p :: rest) = scoredOf qL rest := by
        simp [scoredOf, List.filterMap_cons, h]
      rw [hcons, ih, List.countP_cons]
      simp [h]

theorem idsOf_scoredOf (qL : Str) :
    ∀ l : List (Nat × Fact),
      (scoredOf qL l).map (fun p => p.2.1)
        = (l.filter (fun p => decide (scoreFact qL p.2 ≠ 0))).map Prod.fst := by
  intro l
  induction l with
  | nil => rfl
  | cons p rest ih =>
    by_cases h : scoreFact qL p.2 ≠ 0
    · have hcons : scoredOf qL (p :: rest)
          = (scoreFact qL p.2, p.1, p.2) :: scoredOf qL rest := by
        simp [scoredOf, List.filterMap_cons, h]
      rw [hcons, List.filter_cons]
      simp [h, ih]
    · have hcons : scoredOf qL (p :: rest) = scoredOf qL rest := by
        simp [scoredOf, List.filterMap_cons, h]
      rw [hcons, List.filter_cons]
      simp [h, ih]

theorem mem_scoredOf_intro (qL : Str) {l : List (Nat × Fact)} {j : Nat} {fc : Fact}
    (h : (j, fc) ∈ l) (hs : scoreFact qL fc ≠ 0) :
    (scoreFact qL fc, j, fc) ∈ scoredOf qL l :=
  List.mem_filterMap.mpr ⟨(j, fc), h, by rw [if_pos hs]⟩

/-! ## Basic string lemmas -/

theorem dropWhile_head_not {α : Type} {p : α → Bool} :
    ∀ (l : List α) (c : α), (l.dropWhile p).head? = some c → p c = false := by
  intro l
  induction l with
  | nil => intro c h; simp [List.dropWhile] at h
  | cons a t ih =>
    intro c h
    by_cases hp : p a
    · rw [List.dropWhile_cons, if_pos hp] at h
      exact ih c h
    · rw [List.dropWhile_cons, if_neg hp] at h
      simp at h
      rw [← h]
      simpa using hp

theorem dropWhile_eq_self_of_head {α : Type} {p : α → Bool} (l : List α)
    (h : ∀ c, l.head? = some c → p c = false) : l.dropWhile p = l := by
  cases l with
  | nil => rfl
  | cons a t =>
    rw [List.dropWhile_cons, if_neg]
    simp [h a rfl]

theorem dropWhile_idem {α : Type} {p : α → Bool} (l : List α) :
    (l.dropWhile p).dropWhile p = l.dropWhile p :=
  dropWhile_eq_self_of_head _ (fun c hc => dropWhile_head_not l c hc)

theorem dropWhile_suffix_exists {α : Type} (p : α → Bool) :
    ∀ l : List α, ∃ pre, l = pre ++ l.dropWhile p := by
  intro l
  induction l with
  | nil => exact ⟨[], rfl⟩
  | cons a t ih =>
    by_cases hp : p a
    · obtain ⟨pre, hpre⟩ := ih
      refine ⟨a :: pre, ?_⟩
      rw [List.dropWhile_cons, if_pos hp]
      simpa using hpre
    · exact ⟨[], by rw [List.dropWhile_cons, if_neg hp]; rfl⟩

theorem pyStrip_idem (s : Str) : pyStrip (pyStrip s) = pyStrip s := by
  unfold pyStrip
  set t := s.dropWhile pyIsSpace with ht
  set u := t.reverse.dropWhile pyIsSpace with hu
  have step1 : u.reverse.dropWhile pyIsSpace = u.reverse := by
    apply dropWhile_eq_self_of_head
    intro c hc
    obtain ⟨pre, hpre⟩ := dropWhile_suffix_exists pyIsSpace t.reverse
    have htu : t = u.reverse ++ pre.reverse := by
      have := congrArg List.reverse hpre
      simpa [List.reverse_append] using this
    have hhead : t.head? = some c := by
      cases hur : u.reverse with
      | nil => rw [hur] at hc; simp at hc
      | cons d r =>
        rw [hur] at hc
        simp at hc
        rw [htu, hur, hc]
        rfl
    exact dropWhile_head_not s c (ht ▸ hhead)
  rw [step1, List.reverse_reverse, hu, dropWhile_idem]

theorem normalise_pyStrip (s : Str) : normalise (pyStrip s) = normalise s := by
  unfold normalise
  rw [pyStrip_idem]

/-! ## Rowid enumeration lemmas -/

theorem withIds_append : ∀ (n : Nat) (l₁ l₂ : List Fact),
    withIds n (l₁ ++ l₂) = withIds n l₁ ++ withIds (n + l₁.length) l₂ := by
  intro n l₁
  induction l₁ generalizing n with
  | nil => intro l₂; simp [withIds]
  | cons f fs ih =>
    intro l₂
    have harith : n + 1 + fs.length = n + (fs.length + 1) := by omega
    simp only [List.cons_append, withIds, List.append_eq, ih (n + 1) l₂, List.length_cons,
      harith]

theorem withIds_map_snd : ∀ (n : Nat) (l : List Fact),
    (withIds n l).map Prod.snd = l := by
  intro n l
  induction l generalizing n with
  | nil => rfl
  | cons f fs ih => simp [withIds, ih]

theorem withIds_map_fst : ∀ (n : Nat) (l : List Fact),
    (withIds n l).map Prod.fst = List.range' n l.length := by
  intro n l
  induction l generalizing n with
  | nil => rfl
  | cons f fs ih => simp [withIds, ih, List.range']

theorem mem_withIds_snd {n : Nat} {l : List Fact} {p : Nat × Fact}
    (h : p ∈ withIds n l) : p.2 ∈ l := by
  have : p.2 ∈ (withIds n l).map Prod.snd := List.mem_map_of_mem _ h
  rwa [withIds_map_snd] at this

theorem mem_withIds_of_mem {l : List Fact} {f : Fact} :
    ∀ n : Nat, f ∈ l → ∃ i, (i, f) ∈ withIds n l := by
  induction l with
  | nil => intro n h; simp at h
  | cons g gs ih =>
    intro n h
    rcases List.mem_cons.mp h with h | h
    · exact ⟨n, by simp [withIds, h]⟩
    · obtain ⟨i, hi⟩ := ih (n + 1) h
      exact ⟨i, by simp [withIds, hi]⟩

/-! ## Stable descending sort lemmas -/

theorem insDesc_perm {α : Type} (key : α → Int) (x : α) :
    ∀ l : List α, List.Perm (insDesc key x l) (x :: l) := by
  intro l
  induction l with
  | nil => simp [insDesc]
  | cons y ys ih =>
    by_cases h : key y ≤ key x
    · simp [insDesc, h]
    · rw [insDesc, if_neg h]
      exact (ih.cons y).trans (List.Perm.swap x y ys)

theorem pySortDesc_perm {α : Type} (key : α → Int) :
    ∀ l : List α, List.Perm (pySortDesc key l) l := by
  intro l
  induction l with
  | nil => simp [pySortDesc]
  | cons x xs ih =>
    exact (insDesc_perm key x (pySortDesc key xs)).trans (ih.cons x)

theorem insDesc_pairwise {α : Type} (key : α → Int) (x : α) :
    ∀ l : List α, l.Pairwise (fun a b => key b ≤ key a) →
      (insDesc key x l).Pairwise (fun a b => key b ≤ key a) := by
  intro l
  induction l with
  | nil => intro _; simp [insDesc]
  | cons y ys ih =>
    intro hp
    rcases List.pairwise_cons.mp hp with ⟨hy, hys⟩
    by_cases h : key y ≤ key x
    · rw [insDesc, if_pos h]
      refine List.pairwise_cons.mpr ⟨?_, hp⟩
      intro z hz
      rcases List.mem_cons.mp hz with rfl | hz
      · exact h
      · exact le_trans (hy z hz) h
    · rw [insDesc, if_neg h]
      refine List.pairwise_cons.mpr ⟨?_, ih hys⟩
      intro z hz
      have hz' := (insDesc_perm key x ys).mem_iff.mp hz
      rcases List.mem_cons.mp hz' with rfl | hz'
      · exact le_of_lt (lt_of_not_le h)
      · exact hy z hz'

theorem pySortDesc_pairwise {α : Type} (key : α → Int) :
    ∀ l : List α, (pySortDesc key l).Pairwise (fun a b => key b ≤ key a) := by
  intro l
  induction l with
  | nil => simp [pySortDesc]
  | cons x xs ih => exact insDesc_pairwise key x _ ih

/-! ## Generic lemmas on the rank index and the stable sort -/

theorem idxOfId_front {α : Type} (ids : α → Nat) {i : Nat} :
    ∀ (u : List α) (x : α) (v : List α), (∀ y ∈ u, ids y ≠ i) → ids x = i →
      idxOfId ids i (u ++ x :: v) = u.length := by
  intro u
  induction u with
  | nil =>
    intro x v _ hx
    simp [idxOfId, hx]
  | cons w u ih =>
    intro x v hu hx
    have hw : ids w ≠ i := hu w (List.mem_cons_self _ _)
    simp only [List.cons_append, idxOfId, hw, if_false, List.length_cons, List.append_eq]
    rw [ih x v (fun y hy => hu y (List.mem_cons_of_mem _ hy)) hx]

theorem exists_decomp_of_mem_ids {α : Type} (ids : α → Nat) {i : Nat} :
    ∀ l : List α, i ∈ l.map ids →
      ∃ u x v, l = u ++ x :: v ∧ ids x = i ∧ ∀ y ∈ u, ids y ≠ i := by
  intro l
  induction l with
  | nil => intro h; simp at h
  | cons a rest ih =>
    intro h
    by_cases ha : ids a = i
    · exact ⟨[], a, rest, rfl, ha, by simp⟩
    · have : i ∈ rest.map ids := by
        rcases List.mem_map.mp h with ⟨y, hy, hyi⟩
        rcases List.mem_cons.mp hy with rfl | hy
        · exact absurd hyi ha
        · exact List.mem_map.mpr ⟨y, hy, hyi⟩
      obtain ⟨u, x, v, hl, hx, hu⟩ := ih this
      refine ⟨a :: u, x, v, by rw [List.cons_append, hl], hx, ?_⟩
      intro y hy
      rcases List.mem_cons.mp hy with rfl | hy
      · exact ha
      · exact hu y hy

theorem idxOfId_insDesc_self {α : Type} (key : α → Int) (ids : α → Nat) (x : α) :
    ∀ s : List α, s.Pairwise (fun a b => key b ≤ key a) → (∀ y ∈ s, ids y ≠ ids x) →
      idxOfId ids (ids x) (insDesc key x s)
        = s.countP (fun y => decide (key x < key y)) := by
  intro s
  induction s with
  | nil => intro _ _; simp [insDesc, idxOfId]
  | cons y ys ih =>
    intro hp hids
    rcases List.pairwise_cons.mp hp with ⟨hy, hys⟩
    by_cases hle : key y ≤ key x
    · rw [insDesc, if_pos hle]
      have h0 : (y :: ys).countP (fun z => decide (key x < key z)) = 0 := by
        apply List.countP_eq_zero.mpr
        intro z hz
        rcases List.mem_cons.mp hz with rfl | hz
        · simpa using not_lt_of_le hle
        · simpa using not_lt_of_le (le_trans (hy z hz) hle)
      rw [h0]
      simp [idxOfId]
    · rw [insDesc, if_neg hle]
      have hyi : ids y ≠ ids x := hids y (List.mem_cons_self _ _)
      simp only [idxOfId, hyi, if_false]
      rw [ih hys (fun z hz => hids z (List.mem_cons_of_mem _ hz))]
      rw [List.countP_cons]
      have : key x < key y := lt_of_not_le hle
      simp [this]

theorem idxOfId_insDesc_other {α : Type} (key : α → Int) (ids : α → Nat) (z x : α) :
    ∀ (u v : List α), (∀ y ∈ u, key x ≤ key y) → (∀ y ∈ u, ids y ≠ ids x) →
      ids z ≠ ids x →
      idxOfId ids (ids x) (insDesc key z (u ++ x :: v))
        = (if key x ≤ key z then u.length + 1 else u.length) := by
  intro u
  induction u with
  | nil =>
    intro v _ _ hz
    by_cases h : key x ≤ key z
    · simp only [List.nil_append, insDesc, h, if_pos, if_true]
      simp [idxOfId, hz]
    · simp only [List.nil_append, insDesc, h, if_false]
      simp [idxOfId, h]
  | cons w u ih =>
    intro v hu hids hz
    have hxw : key x ≤ key w := hu w (List.mem_cons_self _ _)
    have hwi : ids w ≠ ids x := hids w (List.mem_cons_self _ _)
    by_cases hwz : key w ≤ key z
    · have hxz : key x ≤ key z := le_trans hxw hwz
      simp only [List.cons_append, insDesc, hwz, if_pos, if_true, hxz]
      simp only [idxOfId, hz, if_false, hwi, List.append_eq]
      rw [idxOfId_front ids u x v (fun y hy => hids y (List.mem_cons_of_mem _ hy)) rfl]
      simp
    · simp only [List.cons_append, insDesc, hwz, if_false]
      simp only [idxOfId, hwi, if_false, List.append_eq]
      rw [ih v (fun y hy => hu y (List.mem_cons_of_mem _ hy))
        (fun y hy => hids y (List.mem_cons_of_mem _ hy)) hz]
      by_cases hxz : key x ≤ key z
      · simp [hxz]
      · simp [hxz]

theorem idxOfId_pySortDesc {α : Type} (key : α → Int) (ids : α → Nat) :
    ∀ (a : List α) (x : α) (b : List α),
      (∀ y ∈ a ++ b, ids y ≠ ids x) →
      idxOfId ids (ids x) (pySortDesc key (a ++ x :: b))
        = (a ++ x :: b).countP (fun y => decide (key x < key y))
          + a.countP (fun y => decide (key y = key x)) := by
  intro a
  induction a with
  | nil =>
    intro x b hids
    show idxOfId ids (ids x) (insDesc key x (pySortDesc key b)) = _
    rw [idxOfId_insDesc_self key ids x (pySortDesc key b) (pySortDesc_pairwise key b)
      (fun y hy => hids y (by simpa using (pySortDesc_perm key b).mem_iff.mp hy))]
    rw [(pySortDesc_perm key b).countP_eq]
    simp [List.countP_cons]
  | cons z a ih =>
    intro x b hids
    have hza : ∀ y ∈ a ++ b, ids y ≠ ids x :=
      fun y hy => hids y (by
        rcases List.mem_append.mp hy with hy | hy
        · exact List.mem_append.mpr (Or.inl (List.mem_cons_of_mem _ hy))
        · exact List.mem_append.mpr (Or.inr hy))
    have hzx : ids z ≠ ids x :=
      hids z (List.mem_append.mpr (Or.inl (List.mem_cons_self _ _)))
    have hmem : ids x ∈ (pySortDesc key (a ++ x :: b)).map ids := by
      apply List.mem_map.mpr
      exact ⟨x, (pySortDesc_perm key _).mem_iff.mpr
        (List.mem_append.mpr (Or.inr (List.mem_cons_self _ _))), rfl⟩
    obtain ⟨u, x', v, hdec, hx', hu⟩ := exists_decomp_of_mem_ids ids _ hmem
    have hx'x : x' = x := by
      have hx'mem : x' ∈ a ++ x :: b := by
        have : x' ∈ pySortDesc key (a ++ x :: b) := by
          rw [hdec]; exact List.mem_append.mpr (Or.inr (List.mem_cons_self _ _))
        exact (pySortDesc_perm key _).mem_iff.mp this
      rcases List.mem_append.mp hx'mem with hy | hy
      · exact absurd hx' (hza x' (List.mem_append.mpr (Or.inl hy)))
      · rcases List.mem_cons.mp hy with h | hy
        · exact h
        · exact absurd hx' (hza x' (List.mem_append.mpr (Or.inr hy)))
    rw [hx'x] at hdec
    have hukey : ∀ y ∈ u, key x ≤ key y := by
      have hpw := pySortDesc_pairwise key (a ++ x :: b)
      rw [hdec] at hpw
      rcases List.pairwise_append.mp hpw with ⟨_, _, hcross⟩
      intro y hy
      exact hcross y hy x (List.mem_cons_self _ _)
    have hidx : idxOfId ids (ids x) (pySortDesc key (a ++ x :: b)) = u.length := by
      rw [hdec]
      exact idxOfId_front ids u x v hu rfl
    have hul : u.length = (a ++ x :: b).countP (fun y => decide (key x < key y))
        + a.countP (fun y => decide (key y = key x)) := by
      rw [← hidx, ih x b hza]
    show idxOfId ids (ids x) (insDesc key z (pySortDesc key (a ++ x :: b))) = _
    rw [hdec, idxOfId_insDesc_other key ids z x u v hukey hu hzx]
    rw [List.cons_append, List.countP_cons, List.countP_cons, hul]
    by_cases hxz : key x ≤ key z
    · rw [if_pos hxz]
      by_cases hlt : key x < key z
      · have hne : ¬ (key z = key x) := by
          intro h
          rw [h] at hlt
          exact lt_irrefl _ hlt
        simp [hlt, hne]
        omega
      · have heq : key z = key x := le_antisymm (not_lt.mp hlt) hxz
        simp [hlt, heq]
        omega
    · rw [if_neg hxz]
      have hlt : ¬ (key x < key z) := fun h => hxz (le_of_lt h)
      have hne : ¬ (key z = key x) := by
        intro h
        rw [h] at hxz
        exact hxz (le_refl _)
      simp [hlt, hne]

theorem countP_lt_add_countP_eq {α : Type} (key : α → Int) (s : Int) :
    ∀ l : List α,
      l.countP (fun y => decide (s < key y)) + l.countP (fun y => decide (key y = s))
        = l.countP (fun y => decide (s ≤ key y)) := by
  intro l
  induction l with
  | nil => rfl
  | cons a rest ih =>
    simp only [List.countP_cons]
    by_cases h1 : s < key a
    · have h2 : ¬ (key a = s) := by intro h; rw [h] at h1; exact lt_irrefl _ h1
      have h3 : s ≤ key a := le_of_lt h1
      simp [h1, h2, h3]
      omega
    · by_cases h2 : key a = s
      · have h3 : s ≤ key a := le_of_eq h2.symm
        simp [h1, h2, h3]
        omega
      · have h3 : ¬ (s ≤ key a) := by
          intro h
          rcases lt_or_eq_of_le h with h | h
          · exact h1 h
          · exact h2 h.symm
        simp [h1, h2, h3]
        omega


/-! ## `get_facts` membership -/

theorem mem_factsWithId {db : DB} {minImp : Int} {p : Nat × Fact} :
    p ∈ factsWithId db minImp ↔ p ∈ withIds 0 db.facts ∧ minImp ≤ p.2.importance := by
  unfold factsWithId
  rw [(pySortDesc_perm _ _).mem_iff, List.mem_reverse, List.mem_filter]
  simp

theorem mem_get_facts {db : DB} {minImp : Int} {f : Fact} :
    f ∈ get_facts db minImp ↔ f ∈ db.facts ∧ minImp ≤ f.importance := by
  unfold get_facts
  constructor
  · intro h
    obtain ⟨p, hp, hpf⟩ := List.mem_map.mp h
    rcases mem_factsWithId.mp hp with ⟨hmem, himp⟩
    exact ⟨hpf ▸ mem_withIds_snd hmem, hpf ▸ himp⟩
  · rintro ⟨hmem, himp⟩
    obtain ⟨i, hi⟩ := mem_withIds_of_mem 0 hmem
    exact List.mem_map.mpr ⟨(i, f), mem_factsWithId.mpr ⟨hi, himp⟩, rfl⟩

theorem mem_dedupIndex {db : DB} {s : Str} :
    s ∈ dedupIndex db ↔ seenSpec db s := by
  unfold dedupIndex seenSpec
  rw [List.mem_map]
  constructor
  · rintro ⟨f, hf, rfl⟩
    rcases mem_get_facts.mp hf with ⟨h1, h2⟩
    exact ⟨f, h1, h2, rfl⟩
  · rintro ⟨f, h1, h2, rfl⟩
    exact ⟨f, mem_get_facts.mpr ⟨h1, h2⟩, rfl⟩

/-! ## Refresh loop lemmas -/

theorem add_fact_facts (db : DB) (src t : Str) (imp : Int) :
    (add_fact db src t imp).facts = db.facts ++ [⟨tsRender db.clock, src, t, imp⟩] := rfl

theorem add_fact_interactions (db : DB) (src t : Str) (imp : Int) :
    (add_fact db src t imp).interactions = db.interactions := rfl

theorem seenSpec_add_fact {db : DB} {src t : Str} {imp : Int} {s : Str} :
    seenSpec (add_fact db src t imp) s ↔ seenSpec db s ∨ (1 ≤ imp ∧ normalise t = s) := by
  unfold seenSpec
  rw [add_fact_facts]
  constructor
  · rintro ⟨f, hf, h1, h2⟩
    rcases List.mem_append.mp hf with hf | hf
    · exact Or.inl ⟨f, hf, h1, h2⟩
    · simp at hf
      subst hf
      exact Or.inr ⟨h1, h2⟩
  · rintro (⟨f, hf, h1, h2⟩ | ⟨h1, h2⟩)
    · exact ⟨f, List.mem_append.mpr (Or.inl hf), h1, h2⟩
    · exact ⟨⟨tsRender db.clock, src, t, imp⟩, List.mem_append.mpr (Or.inr (by simp)), h1, h2⟩

theorem processSentences_seen_mono (its : Str) :
    ∀ (sents : List Str) (st : RState) (s : Str),
      s ∈ st.seen → s ∈ (processSentences its sents st).seen := by
  intro sents
  induction sents with
  | nil => intro st s h; exact h
  | cons sentence rest ih =>
    intro st s h
    by_cases h1 : isSalient sentence
    · by_cases h2 : normalise sentence ∈ st.seen
      · simpa [processSentences, h1, h2] using ih _ s h
      · simp only [processSentences, h1, if_true, h2, if_false]
        exact ih _ s (List.mem_cons_of_mem _ h)
    · simpa [processSentences, h1] using ih _ s h

theorem processSentences_interactions (its : Str) :
    ∀ (sents : List Str) (st : RState),
      (processSentences its sents st).db.interactions = st.db.interactions := by
  intro sents
  induction sents with
  | nil => intro st; rfl
  | cons sentence rest ih =>
    intro st
    by_cases h1 : isSalient sentence
    · by_cases h2 : normalise sentence ∈ st.seen
      · simpa [processSentences, h1, h2] using ih _
      · simp only [processSentences, h1, if_true, h2, if_false]
        rw [ih]
        rfl
    · simpa [processSentences, h1] using ih _

theorem processInteractions_seen_mono :
    ∀ (ints : List Interaction) (st : RState) (s : Str),
      s ∈ st.seen → s ∈ (processInteractions ints st).seen := by
  intro ints
  induction ints with
  | nil => intro st s h; exact h
  | cons i rest ih =>
    intro st s h
    exact ih _ s (processSentences_seen_mono _ _ _ s h)

theorem processInteractions_interactions :
    ∀ (ints : List Interaction) (st : RState),
      (processInteractions ints st).db.interactions = st.db.interactions := by
  intro ints
  induction ints with
  | nil => intro st; rfl
  | cons i rest ih =>
    intro st
    rw [processInteractions, ih, processSentences_interactions]

theorem processTemplates_seen_mono :
    ∀ (ts : List Str) (st : RState) (s : Str),
      s ∈ st.seen → s ∈ (processTemplates ts st).seen := by
  intro ts
  induction ts with
  | nil => intro st s h; exact h
  | cons t rest ih =>
    intro st s h
    by_cases h2 : normalise t ∈ st.seen
    · simpa [processTemplates, h2] using ih _ s h
    · simp only [processTemplates, h2, if_false]
      exact ih _ s (List.mem_cons_of_mem _ h)

theorem processTemplates_interactions :
    ∀ (ts : List Str) (st : RState),
      (processTemplates ts st).db.interactions = st.db.interactions := by
  intro ts
  induction ts with
  | nil => intro st; rfl
  | cons t rest ih =>
    intro st
    by_cases h2 : normalise t ∈ st.seen
    · simpa [processTemplates, h2] using ih _
    · simp only [processTemplates, h2, if_false]
      rw [ih]
      rfl

theorem processSentences_seenOK (its : Str) :
    ∀ (sents : List Str) (st : RState),
      SeenOK st → SeenOK (processSentences its sents st) := by
  intro sents
  induction sents with
  | nil => intro st h; exact h
  | cons sentence rest ih =>
    intro st h
    by_cases h1 : isSalient sentence
    · by_cases h2 : normalise sentence ∈ st.seen
      · simpa [processSentences, h1, h2] using ih _ h
      · simp only [processSentences, h1, if_true, h2, if_false]
        apply ih
        intro s
        rw [List.mem_cons]
        show _ ↔ seenSpec (add_fact st.db (interactionSource its) (pyStrip sentence) 2) s
        rw [seenSpec_add_fact, normalise_pyStrip]
        constructor
        · rintro (rfl | hs)
          · exact Or.inr ⟨by norm_num, rfl⟩
          · exact Or.inl ((h s).mp hs)
        · rintro (hs | ⟨_, rfl⟩)
          · exact Or.inr ((h s).mpr hs)
          · exact Or.inl rfl
    · simpa [processSentences, h1] using ih _ h

theorem processInteractions_seenOK :
    ∀ (ints : List Interaction) (st : RState),
      SeenOK st → SeenOK (processInteractions ints st) := by
  intro ints
  induction ints with
  | nil => intro st h; exact h
  | cons i rest ih =>
    intro st h
    exact ih _ (processSentences_seenOK _ _ _ h)

theorem processTemplates_seenOK :
    ∀ (ts : List Str) (st : RState),
      SeenOK st → SeenOK (processTemplates ts st) := by
  intro ts
  induction ts with
  | nil => intro st h; exact h
  | cons t rest ih =>
    intro st h
    by_cases h2 : normalise t ∈ st.seen
    · simpa [processTemplates, h2] using ih _ h
    · simp only [processTemplates, h2, if_false]
      apply ih
      intro s
      rw [List.mem_cons]
      show _ ↔ seenSpec (add_fact st.db (S "heuristic") t 1) s
      rw [seenSpec_add_fact]
      constructor
      · rintro (rfl | hs)
        · exact Or.inr ⟨le_refl _, rfl⟩
        · exact Or.inl ((h s).mp hs)
      · rintro (hs | ⟨_, rfl⟩)
        · exact Or.inr ((h s).mpr hs)
        · exact Or.inl rfl

theorem processSentences_covered (its : Str) :
    ∀ (sents : List Str) (st : RState) (s : Str),
      s ∈ sents → isSalient s = true →
        normalise s ∈ (processSentences its sents st).seen := by
  intro sents
  induction sents with
  | nil => intro st s h; simp at h
  | cons sentence rest ih =>
    intro st s hmem hsal
    rcases List.mem_cons.mp hmem with rfl | hmem
    · by_cases h2 : normalise s ∈ st.seen
      · simp only [processSentences, hsal, if_true, h2]
        exact processSentences_seen_mono _ _ _ _ h2
      · simp only [processSentences, hsal, if_true, h2, if_false]
        exact processSentences_seen_mono _ _ _ _ (List.mem_cons_self _ _)
    · by_cases h1 : isSalient sentence
      · by_cases h2 : normalise sentence ∈ st.seen
        · simpa [processSentences, h1, h2] using ih _ s hmem hsal
        · simp only [processSentences, h1, if_true, h2, if_false]
          exact ih _ s hmem hsal
      · simpa [processSentences, h1] using ih _ s hmem hsal

theorem processInteractions_covered :
    ∀ (ints : List Interaction) (st : RState) (i : Interaction) (s : Str),
      i ∈ ints → s ∈ extractSentences i.content → isSalient s = true →
        normalise s ∈ (processInteractions ints st).seen := by
  intro ints
  induction ints with
  | nil => intro st i s h; simp at h
  | cons j rest ih =>
    intro st i s hmem hsent hsal
    rcases List.mem_cons.mp hmem with rfl | hmem
    · rw [processInteractions]
      exact processInteractions_seen_mono rest _ _
        (processSentences_covered i.ts _ st s hsent hsal)
    · rw [processInteractions]
      exact ih _ i s hmem hsent hsal

theorem processTemplates_covered :
    ∀ (ts : List Str) (st : RState) (t : Str),
      t ∈ ts → normalise t ∈ (processTemplates ts st).seen := by
  intro ts
  induction ts with
  | nil => intro st t h; simp at h
  | cons u rest ih =>
    intro st t hmem
    rcases List.mem_cons.mp hmem with rfl | hmem
    · by_cases h2 : normalise t ∈ st.seen
      · simp only [processTemplates, h2, if_true]
        exact processTemplates_seen_mono _ _ _ h2
      · simp only [processTemplates, h2, if_false]
        exact processTemplates_seen_mono _ _ _ (List.mem_cons_self _ _)
    · by_cases h2 : normalise u ∈ st.seen
      · simpa [processTemplates, h2] using ih _ t hmem
      · simp only [processTemplates, h2, if_false]
        exact ih _ t hmem

theorem processSentences_skip (its : Str) :
    ∀ (sents : List Str) (st : RState),
      (∀ s ∈ sents, isSalient s = true → normalise s ∈ st.seen) →
        processSentences its sents st = st := by
  intro sents
  induction sents with
  | nil => intro st _; rfl
  | cons sentence rest ih =>
    intro st h
    by_cases h1 : isSalient sentence
    · have h2 : normalise sentence ∈ st.seen := h sentence (List.mem_cons_self _ _) h1
      simp only [processSentences, h1, if_true, h2]
      exact ih _ (fun s hs => h s (List.mem_cons_of_mem _ hs))
    · simp only [processSentences, h1]
      simp only [if_false, Bool.false_eq_true, reduceIte]
      exact ih _ (fun s hs => h s (List.mem_cons_of_mem _ hs))

theorem processInteractions_skip :
    ∀ (ints : List Interaction) (st : RState),
      (∀ i ∈ ints, ∀ s ∈ extractSentences i.content, isSalient s = true →
          normalise s ∈ st.seen) →
        processInteractions ints st = st := by
  intro ints
  induction ints with
  | nil => intro st _; rfl
  | cons i rest ih =>
    intro st h
    rw [processInteractions,
      processSentences_skip _ _ _ (fun s hs hsal => h i (List.mem_cons_self _ _) s hs hsal)]
    exact ih _ (fun j hj s hs hsal => h j (List.mem_cons_of_mem _ hj) s hs hsal)

theorem processTemplates_skip :
    ∀ (ts : List Str) (st : RState),
      (∀ t ∈ ts, normalise t ∈ st.seen) → processTemplates ts st = st := by
  intro ts
  induction ts with
  | nil => intro st _; rfl
  | cons t rest ih =>
    intro st h
    have h2 : normalise t ∈ st.seen := h t (List.mem_cons_self _ _)
    simp only [processTemplates, h2, if_true]
    exact ih _ (fun u hu => h u (List.mem_cons_of_mem _ hu))

theorem refresh_facts_interactions (db : DB) :
    (refresh_facts db).2.interactions = db.interactions := by
  unfold refresh_facts
  rw [processTemplates_interactions, processInteractions_interactions]

/-- C3.  Running `refresh_facts` a second time on the database produced
by a first run (with the interaction log unchanged in between) inserts
no new facts: the returned list of newly inserted facts is empty and the
database is untouched. -/
theorem refresh_facts_idempotent (db : DB) :
    (refresh_facts (refresh_facts db).2).1 = [] ∧
      (refresh_facts (refresh_facts db).2).2 = (refresh_facts db).2 := by
  have hOK0 : SeenOK ⟨dedupIndex db, db, []⟩ := fun s => mem_dedupIndex
  have hOK2 : SeenOK (processTemplates keywordTemplates
      (processInteractions db.interactions ⟨dedupIndex db, db, []⟩)) :=
    processTemplates_seenOK _ _ (processInteractions_seenOK _ _ hOK0)
  have hrefresh : refresh_facts db =
      ((processTemplates keywordTemplates
        (processInteractions db.interactions ⟨dedupIndex db, db, []⟩)).newFacts,
       (processTemplates keywordTemplates
        (processInteractions db.interactions ⟨dedupIndex db, db, []⟩)).db) := rfl
  have hints : (refresh_facts db).2.interactions = db.interactions :=
    refresh_facts_interactions db
  have hsub : ∀ s, s ∈ (processTemplates keywordTemplates
      (processInteractions db.interactions ⟨dedupIndex db, db, []⟩)).seen →
      s ∈ dedupIndex (refresh_facts db).2 := by
    intro s hs
    rw [hrefresh]
    exact mem_dedupIndex.mpr ((hOK2 s).mp hs)
  have hskipI : processInteractions (refresh_facts db).2.interactions
      ⟨dedupIndex (refresh_facts db).2, (refresh_facts db).2, []⟩ =
      ⟨dedupIndex (refresh_facts db).2, (refresh_facts db).2, []⟩ := by
    apply processInteractions_skip
    intro i hi s hs hsal
    rw [hints] at hi
    exact hsub _ (processTemplates_seen_mono _ _ _
      (processInteractions_covered _ _ i s hi hs hsal))
  have hskipT : processTemplates keywordTemplates
      ⟨dedupIndex (refresh_facts db).2, (refresh_facts db).2, []⟩ =
      ⟨dedupIndex (refresh_facts db).2, (refresh_facts db).2, []⟩ :=
    processTemplates_skip _ _ (fun t ht => hsub _ (processTemplates_covered _ _ t ht))
  have hfinal : refresh_facts (refresh_facts db).2 = ([], (refresh_facts db).2) := by
    show ((processTemplates keywordTemplates
      (processInteractions (refresh_facts db).2.interactions
        ⟨dedupIndex (refresh_facts db).2, (refresh_facts db).2, []⟩)).newFacts, _) = _
    rw [hskipI, hskipT]
  rw [hfinal]
  exact ⟨rfl, rfl⟩

/-! ## Fact-table invariant (C4) -/

theorem factsOK_add_fact {db : DB} {src t : Str} {imp : Int}
    (h : FactsOK db) (himp : 1 ≤ imp)
    (hnew : ∀ f ∈ db.facts, normalise f.fact ≠ normalise t) :
    FactsOK (add_fact db src t imp) := by
  constructor
  · intro f hf
    rw [add_fact_facts] at hf
    rcases List.mem_append.mp hf with hf | hf
    · exact h.1 f hf
    · simp at hf
      subst hf
      exact himp
  · rw [add_fact_facts]
    apply List.pairwise_append.mpr
    refine ⟨h.2, by simp, ?_⟩
    intro a ha b hb
    simp at hb
    subst hb
    exact hnew a ha

theorem seenOK_cons_add {st : RState} {src t : Str} {imp : Int} {nf : List Fact} {n : Str}
    (h : SeenOK st) (himp : 1 ≤ imp) (hn : normalise t = n) :
    SeenOK ⟨n :: st.seen, add_fact st.db src t imp, nf⟩ := by
  intro s
  show s ∈ n :: st.seen ↔ seenSpec (add_fact st.db src t imp) s
  rw [List.mem_cons, seenSpec_add_fact, hn]
  constructor
  · rintro (rfl | hs)
    · exact Or.inr ⟨himp, rfl⟩
    · exact Or.inl ((h s).mp hs)
  · rintro (hs | ⟨_, rfl⟩)
    · exact Or.inr ((h s).mpr hs)
    · exact Or.inl rfl

theorem processSentences_factsOK (its : Str) :
    ∀ (sents : List Str) (st : RState),
      SeenOK st → FactsOK st.db → FactsOK (processSentences its sents st).db := by
  intro sents
  induction sents with
  | nil => intro st _ hF; exact hF
  | cons sentence rest ih =>
    intro st hOK hF
    by_cases h1 : isSalient sentence
    · by_cases h2 : normalise sentence ∈ st.seen
      · simpa [processSentences, h1, h2] using ih _ hOK hF
      · simp only [processSentences, h1, if_true, h2, if_false]
        have hnew : ∀ f ∈ st.db.facts, normalise f.fact ≠ normalise (pyStrip sentence) := by
          intro f hf heq
          rw [normalise_pyStrip] at heq
          exact h2 ((hOK _).mpr ⟨f, hf, hF.1 f hf, heq⟩)
        exact ih _ (seenOK_cons_add hOK (by norm_num) (normalise_pyStrip sentence))
          (factsOK_add_fact hF (by norm_num) hnew)
    · simpa [processSentences, h1] using ih _ hOK hF

theorem processInteractions_factsOK :
    ∀ (ints : List Interaction) (st : RState),
      SeenOK st → FactsOK st.db → FactsOK (processInteractions ints st).db := by
  intro ints
  induction ints with
  | nil => intro st _ hF; exact hF
  | cons i rest ih =>
    intro st hOK hF
    rw [processInteractions]
    exact ih _ (processSentences_seenOK _ _ _ hOK) (processSentences_factsOK _ _ _ hOK hF)

theorem processTemplates_factsOK :
    ∀ (ts : List Str) (st : RState),
      SeenOK st → FactsOK st.db → FactsOK (processTemplates ts st).db := by
  intro ts
  induction ts with
  | nil => intro st _ hF; exact hF
  | cons t rest ih =>
    intro st hOK hF
    by_cases h2 : normalise t ∈ st.seen
    · simpa [processTemplates, h2] using ih _ hOK hF
    · simp only [processTemplates, h2, if_false]
      have hnew : ∀ f ∈ st.db.facts, normalise f.fact ≠ normalise t := by
        intro f hf heq
        exact h2 ((hOK _).mpr ⟨f, hf, hF.1 f hf, heq⟩)
      exact ih _ (seenOK_cons_add hOK (le_refl _) rfl)
        (factsOK_add_fact hF (le_refl _) hnew)

theorem refresh_factsOK {db : DB} (h : FactsOK db) : FactsOK (refresh_facts db).2 := by
  have hOK0 : SeenOK ⟨dedupIndex db, db, []⟩ := fun s => mem_dedupIndex
  exact processTemplates_factsOK _ _ (processInteractions_seenOK _ _ hOK0)
    (processInteractions_factsOK _ _ hOK0 h)

theorem applyOp_factsOK {db : DB} (op : Op) (h : FactsOK db) : FactsOK (applyOp db op) := by
  cases op with
  | interactionOp role content meta => exact h
  | refreshOp => exact refresh_factsOK h

theorem foldl_applyOp_factsOK :
    ∀ (ops : List Op) (db : DB), FactsOK db → FactsOK (ops.foldl applyOp db) := by
  intro ops
  induction ops with
  | nil => intro db h; exact h
  | cons op rest ih => intro db h; exact ih _ (applyOp_factsOK op h)

/-- C4.  Starting from the empty database, after any interleaving of
interaction appends and `refresh_facts` runs, no two rows of the facts
table share a normalised (lower-cased, whitespace-collapsed) text:
normalisation equality is the deduplication key. -/
theorem stored_facts_normalised_distinct (ops : List Op) :
    ((runOps ops).facts).Pairwise (fun f g => normalise f.fact ≠ normalise g.fact) := by
  have h : FactsOK (runOps ops) :=
    foldl_applyOp_factsOK ops emptyDB ⟨by intro f hf; simp [emptyDB] at hf, by simp [emptyDB]⟩
  exact h.2

/-! ## Write-failure behaviour of the store and the refresh (C5, C6) -/

theorem processSentencesE_allTrue (its : Str) :
    ∀ (sents : List Str) (n : Nat) (st : RState), ∃ m,
      processSentencesE (fun _ => true) its sents n st =
        .ok (m, processSentences its sents st) := by
  intro sents
  induction sents with
  | nil => intro n st; exact ⟨n, rfl⟩
  | cons sentence rest ih =>
    intro n st
    by_cases h1 : isSalient sentence
    · by_cases h2 : normalise sentence ∈ st.seen
      · obtain ⟨m, hm⟩ := ih n st
        exact ⟨m, by simpa [processSentencesE, processSentences, h1, h2] using hm⟩
      · obtain ⟨m, hm⟩ := ih (n + 1)
          ⟨normalise sentence :: st.seen,
           add_fact st.db (interactionSource its) (pyStrip sentence) 2,
           st.newFacts ++ [⟨S "", interactionSource its, pyStrip sentence, 2⟩]⟩
        refine ⟨m, ?_⟩
        simp only [processSentencesE, processSentences, h1, if_true, h2, if_false]
        simpa [add_factE] using hm
    · obtain ⟨m, hm⟩ := ih n st
      exact ⟨m, by simpa [processSentencesE, processSentences, h1] using hm⟩

theorem processInteractionsE_allTrue :
    ∀ (ints : List Interaction) (n : Nat) (st : RState), ∃ m,
      processInteractionsE (fun _ => true) ints n st =
        .ok (m, processInteractions ints st) := by
  intro ints
  induction ints with
  | nil => intro n st; exact ⟨n, rfl⟩
  | cons i rest ih =>
    intro n st
    obtain ⟨m, hm⟩ := processSentencesE_allTrue i.ts (extractSentences i.content) n st
    obtain ⟨m', hm'⟩ := ih m (processSentences i.ts (extractSentences i.content) st)
    refine ⟨m', ?_⟩
    rw [processInteractionsE, hm, processInteractions]
    exact hm'

theorem processTemplatesE_allTrue :
    ∀ (ts : List Str) (n : Nat) (st : RState), ∃ m,
      processTemplatesE (fun _ => true) ts n st = .ok (m, processTemplates ts st) := by
  intro ts
  induction ts with
  | nil => intro n st; exact ⟨n, rfl⟩
  | cons t rest ih =>
    intro n st
    by_cases h2 : normalise t ∈ st.seen
    · obtain ⟨m, hm⟩ := ih n st
      exact ⟨m, by simpa [processTemplatesE, processTemplates, h2] using hm⟩
    · obtain ⟨m, hm⟩ := ih (n + 1)
        ⟨normalise t :: st.seen, add_fact st.db (S "heuristic") t 1,
         st.newFacts ++ [⟨S "", S "heuristic", t, 1⟩]⟩
      refine ⟨m, ?_⟩
      simp only [processTemplatesE, processTemplates, h2, if_false]
      simpa [add_factE] using hm

theorem refresh_factsE_allTrue (db : DB) :
    refresh_factsE (fun _ => true) db = .ok (refresh_facts db) := by
  obtain ⟨m, hm⟩ := processInteractionsE_allTrue db.interactions 0
    ⟨dedupIndex db, db, []⟩
  obtain ⟨m', hm'⟩ := processTemplatesE_allTrue keywordTemplates m
    (processInteractions db.interactions ⟨dedupIndex db, db, []⟩)
  rw [refresh_factsE, hm]
  show (match processTemplatesE (fun _ => true) keywordTemplates m
      (processInteractions db.interactions ⟨dedupIndex db, db, []⟩) with
    | .error e => Except.error e
    | .ok (_, st') => Except.ok (st'.newFacts, st'.db)) = _
  rw [hm']
  rfl

theorem processSentencesE_allFalse (its : Str) :
    ∀ (sents : List Str) (n : Nat) (st : RState),
      processSentencesE (fun _ => false) its sents n st = .error .writeFailed ∨
        (processSentencesE (fun _ => false) its sents n st = .ok (n, st) ∧
          processSentences its sents st = st) := by
  intro sents
  induction sents with
  | nil => intro n st; exact Or.inr ⟨rfl, rfl⟩
  | cons sentence rest ih =>
    intro n st
    by_cases h1 : isSalient sentence
    · by_cases h2 : normalise sentence ∈ st.seen
      · rcases ih n st with h | ⟨h, h'⟩
        · exact Or.inl (by simpa [processSentencesE, h1, h2] using h)
        · exact Or.inr ⟨by simpa [processSentencesE, h1, h2] using h,
            by simpa [processSentences, h1, h2] using h'⟩
      · exact Or.inl (by simp [processSentencesE, h1, h2, add_factE])
    · rcases ih n st with h | ⟨h, h'⟩
      · exact Or.inl (by simpa [processSentencesE, h1] using h)
      · exact Or.inr ⟨by simpa [processSentencesE, h1] using h,
          by simpa [processSentences, h1] using h'⟩

theorem processInteractionsE_allFalse :
    ∀ (ints : List Interaction) (n : Nat) (st : RState),
      processInteractionsE (fun _ => false) ints n st = .error .writeFailed ∨
        (processInteractionsE (fun _ => false) ints n st = .ok (n, st) ∧
          processInteractions ints st = st) := by
  intro ints
  induction ints with
  | nil => intro n st; exact Or.inr ⟨rfl, rfl⟩
  | cons i rest ih =>
    intro n st
    rcases processSentencesE_allFalse i.ts (extractSentences i.content) n st with h | ⟨h, h'⟩
    · exact Or.inl (by rw [processInteractionsE, h])
    · rcases ih n st with hr | ⟨hr, hr'⟩
      · refine Or.inl ?_
        rw [processInteractionsE, h]
        exact hr
      · refine Or.inr ⟨?_, ?_⟩
        · rw [processInteractionsE, h]
          exact hr
        · rw [processInteractions, h']
          exact hr'

theorem processTemplatesE_allFalse :
    ∀ (ts : List Str) (n : Nat) (st : RState),
      processTemplatesE (fun _ => false) ts n st = .error .writeFailed ∨
        (processTemplatesE (fun _ => false) ts n st = .ok (n, st) ∧
          processTemplates ts st = st) := by
  intro ts
  induction ts with
  | nil => intro n st; exact Or.inr ⟨rfl, rfl⟩
  | cons t rest ih =>
    intro n st
    by_cases h2 : normalise t ∈ st.seen
    · rcases ih n st with h | ⟨h, h'⟩
      · exact Or.inl (by simpa [processTemplatesE, h2] using h)
      · exact Or.inr ⟨by simpa [processTemplatesE, h2] using h,
          by simpa [processTemplates, h2] using h'⟩
    · exact Or.inl (by simp [processTemplatesE, h2, add_factE])

/-- C6 (amended).  With a healthy store the refresh completes and equals
the pure computation; with a failing store either there was nothing to
persist (no new facts, database untouched) or the first failed write
raises out of `refresh_facts`, aborting the entire scan. -/
theorem refresh_facts_write_failure_behaviour (db : DB) :
    refresh_factsE (fun _ => true) db = Except.ok (refresh_facts db) ∧
      (refresh_factsE (fun _ => false) db = Except.error DBError.writeFailed ∨
        refresh_factsE (fun _ => false) db = Except.ok ([], db)) := by
  refine ⟨refresh_factsE_allTrue db, ?_⟩
  rcases processInteractionsE_allFalse db.interactions 0 ⟨dedupIndex db, db, []⟩ with h | ⟨h, h'⟩
  · exact Or.inl (by rw [refresh_factsE, h])
  · rcases processTemplatesE_allFalse keywordTemplates 0 ⟨dedupIndex db, db, []⟩ with ht | ⟨ht, ht'⟩
    · refine Or.inl ?_
      rw [refresh_factsE, h]
      show (match processTemplatesE (fun _ => false) keywordTemplates 0
          ⟨dedupIndex db, db, []⟩ with
        | .error e => Except.error e
        | .ok (_, st') => Except.ok (st'.newFacts, st'.db)) = _
      rw [ht]
    · refine Or.inr ?_
      rw [refresh_factsE, h]
      show (match processTemplatesE (fun _ => false) keywordTemplates 0
          ⟨dedupIndex db, db, []⟩ with
        | .error e => Except.error e
        | .ok (_, st') => Except.ok (st'.newFacts, st'.db)) = _
      rw [ht]

/-- C6 (counterexample to the original claim).  `refresh_facts` does
raise to its caller: on the empty database the very first store write
(the first heuristic seed fact) fails and the error escapes the whole
refresh instead of aborting only that candidate. -/
theorem refresh_facts_raises_on_write_failure :
    refresh_factsE (fun _ => false) emptyDB = Except.error DBError.writeFailed := rfl

/-- C5 (amended).  `add_interaction` and `add_fact` contain no error
handling: a failed durable write raises to the caller instead of being
logged and swallowed; only a successful write returns normally,
appending exactly one row. -/
theorem store_writes_propagate_failure (db : DB) (role content src fct : Str) (imp : Int) :
    add_interactionE db false role content none = Except.error DBError.writeFailed ∧
      add_interactionE db true role content none = Except.ok (add_interaction db role content none) ∧
      (add_interaction db role content none).interactions
        = db.interactions ++ [⟨tsRender db.clock, role, content, none⟩] ∧
      add_factE db false src fct imp = Except.error DBError.writeFailed ∧
      add_factE db true src fct imp = Except.ok (add_fact db src fct imp) ∧
      (add_fact db src fct imp).facts = db.facts ++ [⟨tsRender db.clock, src, fct, imp⟩] :=
  ⟨rfl, rfl, rfl, rfl, rfl, rfl⟩

/-- C5 (counterexample to the original claim).  A persistence failure in
`add_interaction` is not swallowed: the operation does not return
normally but raises. -/
theorem add_interaction_raises_on_write_failure :
    add_interactionE emptyDB false (S "user") (S "hallo") none
      = Except.error DBError.writeFailed := rfl

/-! ## Router behaviour on model-call failure (C1) -/

theorem add_interaction_interactions (db : DB) (role content : Str) (meta : Option Str) :
    (add_interaction db role content meta).interactions
      = db.interactions ++ [⟨tsRender db.clock, role, content, meta⟩] := rfl

/-- C1 (amended).  `handle_text` has no exception handler around the
model call: if the call fails the error propagates to the caller — no
error string is styled, spoken or recorded, and the conversation log
keeps only the user turn.  Only on success is the answer styled,
recorded as the assistant turn and returned. -/
theorem handle_text_model_error_propagates
    (llm : Str → List Str → List Str → Except LLMError Str)
    (profile : StyleProfile) (db : DB) (q : Str) (e : LLMError) (a : Str) :
    ((∀ qq c f, llm qq c f = Except.error e) →
      (handle_text llm profile db q).1 = Except.error e ∧
      (handle_text llm profile db q).2.interactions
        = db.interactions ++ [⟨tsRender db.clock, S "user", q, none⟩]) ∧
    ((∀ qq c f, llm qq c f = Except.ok a) →
      (handle_text llm profile db q).1 = Except.ok (apply_style a profile) ∧
      ∃ ts2, (handle_text llm profile db q).2.interactions
        = db.interactions ++ [⟨tsRender db.clock, S "user", q, none⟩,
            ⟨ts2, S "assistant", apply_style a profile, none⟩]) := by
  constructor
  · intro hllm
    have hcall := hllm q (load_context (add_interaction db (S "user") q none))
      (get_relevant_facts (refresh_facts (add_interaction db (S "user") q none)).2 q 5)
    constructor
    · show (match llm q (load_context (add_interaction db (S "user") q none))
          (get_relevant_facts (refresh_facts (add_interaction db (S "user") q none)).2 q 5) with
        | .error e => (Except.error e, (refresh_facts (add_interaction db (S "user") q none)).2)
        | .ok answer =>
            (Except.ok (apply_style answer profile),
              add_interaction (refresh_facts (add_interaction db (S "user") q none)).2
                (S "assistant") (apply_style answer profile) none)).1 = Except.error e
      rw [hcall]
    · show (match llm q (load_context (add_interaction db (S "user") q none))
          (get_relevant_facts (refresh_facts (add_interaction db (S "user") q none)).2 q 5) with
        | .error e => (Except.error e, (refresh_facts (add_interaction db (S "user") q none)).2)
        | .ok answer =>
            (Except.ok (apply_style answer profile),
              add_interaction (refresh_facts (add_interaction db (S "user") q none)).2
                (S "assistant") (apply_style answer profile) none)).2.interactions = _
      rw [hcall]
      show (refresh_facts (add_interaction db (S "user") q none)).2.interactions = _
      rw [refresh_facts_interactions, add_interaction_interactions]
  · intro hllm
    have hcall := hllm q (load_context (add_interaction db (S "user") q none))
      (get_relevant_facts (refresh_facts (add_interaction db (S "user") q none)).2 q 5)
    constructor
    · show (match llm q (load_context (add_interaction db (S "user") q none))
          (get_relevant_facts (refresh_facts (add_interaction db (S "user") q none)).2 q 5) with
        | .error e => (Except.error e, (refresh_facts (add_interaction db (S "user") q none)).2)
        | .ok answer =>
            (Except.ok (apply_style answer profile),
              add_interaction (refresh_facts (add_interaction db (S "user") q none)).2
                (S "assistant") (apply_style answer profile) none)).1 = _
      rw [hcall]
    · refine ⟨tsRender (refresh_facts (add_interaction db (S "user") q none)).2.clock, ?_⟩
      show (match llm q (load_context (add_interaction db (S "user") q none))
          (get_relevant_facts (refresh_facts (add_interaction db (S "user") q none)).2 q 5) with
        | .error e => (Except.error e, (refresh_facts (add_interaction db (S "user") q none)).2)
        | .ok answer =>
            (Except.ok (apply_style answer profile),
              add_interaction (refresh_facts (add_interaction db (S "user") q none)).2
                (S "assistant") (apply_style answer profile) none)).2.interactions = _
      rw [hcall]
      show (add_interaction (refresh_facts (add_interaction db (S "user") q none)).2
        (S "assistant") (apply_style a profile) none).interactions = _
      rw [add_interaction_interactions, refresh_facts_interactions,
        add_interaction_interactions, List.append_assoc]
      rfl

/-- Witness for the amended C1 at a concrete failing model call. -/
theorem handle_text_model_error_propagates_witness :
    (handle_text (fun _ _ _ => Except.error LLMError.network)
        ⟨[], [], S "Hallo zusammen", S "Viele Grüße\nEren"⟩ emptyDB (S "Hallo")).1
      = Except.error LLMError.network ∧
    (handle_text (fun _ _ _ => Except.error LLMError.network)
        ⟨[], [], S "Hallo zusammen", S "Viele Grüße\nEren"⟩ emptyDB (S "Hallo")).2.interactions
      = [⟨tsRender 0, S "user", S "Hallo", none⟩] := by
  have h := (handle_text_model_error_propagates
    (fun _ _ _ => Except.error LLMError.network)
    ⟨[], [], S "Hallo zusammen", S "Viele Grüße\nEren"⟩ emptyDB (S "Hallo")
    LLMError.network (S "")).1 (fun _ _ _ => rfl)
  simpa [emptyDB] using h

/-- C1 (counterexample to the original claim).  On a failing model call
`handle_text` does not reach its normal terminal state: the caller gets
the raised error, not a styled error string, and no assistant turn is
recorded. -/
theorem handle_text_error_not_styled :
    (handle_text (fun _ _ _ => Except.error LLMError.timeout)
        ⟨[], [], S "Hallo zusammen", S "Viele Grüße\nEren"⟩ emptyDB (S "Hi")).1
      = Except.error LLMError.timeout ∧
    (handle_text (fun _ _ _ => Except.error LLMError.timeout)
        ⟨[], [], S "Hallo zusammen", S "Viele Grüße\nEren"⟩ emptyDB (S "Hi")).2.interactions
      = [⟨tsRender 0, S "user", S "Hi", none⟩] :=
  ⟨rfl, rfl⟩

/-! ## Ranking the specified two-fact scenario (C2) -/

/-- C2 (counterexample to the original claim).  For the query `"CAD"`
against exactly the two specified facts, the Dispatch fact is returned:
its score is its importance 1, not 0, because the scorer adds
the importance unconditionally. -/
theorem dispatch_fact_returned_for_cad_query :
    S "Dispatch-Kommunikation erfolgt präzise." ∈
      get_relevant_facts
        ⟨[], [⟨S "t1", S "heuristic", S "CAD-Fälle müssen vor 10 Uhr gemeldet werden.", 1⟩,
              ⟨S "t2", S "heuristic", S "Dispatch-Kommunikation erfolgt präzise.", 1⟩], 2⟩
        (S "CAD") 5 := by
  decide

/-- C2 (amended).  For the query `"CAD"` against the two specified
facts, `get_relevant_facts` returns the CAD fact first (token overlap,
score 3) and the Dispatch fact second (score 1 — its importance; no
fact of importance 1 can score 0). -/
theorem cad_query_ranking :
    get_relevant_facts
        ⟨[], [⟨S "t1", S "heuristic", S "CAD-Fälle müssen vor 10 Uhr gemeldet werden.", 1⟩,
              ⟨S "t2", S "heuristic", S "Dispatch-Kommunikation erfolgt präzise.", 1⟩], 2⟩
        (S "CAD") 5
      = [S "CAD-Fälle müssen vor 10 Uhr gemeldet werden.",
         S "Dispatch-Kommunikation erfolgt präzise."] := by
  decide

/-! ## Context window ordering (C8) -/

theorem appendedRows_length : ∀ (clk : Nat) (rs : List (Str × Str)),
    (appendedRows clk rs).length = rs.length := by
  intro clk rs
  induction rs generalizing clk with
  | nil => rfl
  | cons rc rest ih => simp [appendedRows, ih]

theorem runAdds_interactions : ∀ (rs : List (Str × Str)) (db : DB),
    (runAdds db rs).interactions = db.interactions ++ appendedRows db.clock rs := by
  intro rs
  induction rs with
  | nil => intro db; simp [runAdds, appendedRows]
  | cons rc rest ih =>
    intro db
    show (runAdds (add_interaction db rc.1 rc.2 none) rest).interactions = _
    rw [ih]
    cases rc with
    | mk r c =>
      rw [add_interaction_interactions]
      show db.interactions ++ [⟨tsRender db.clock, r, c, none⟩] ++
        appendedRows (db.clock + 1) rest = _
      rw [List.append_assoc]
      rfl

theorem load_context_drop (db : DB) :
    load_context db = (db.interactions.drop (db.interactions.length - 30)).map formatLine := by
  unfold load_context get_recent_interactions
  rw [← List.rtake_eq_reverse_take_reverse]
  rfl

/-- C8.  After any sequence of interactions added from the empty
database, reloading the context yields exactly the most recent 30
interactions (all of them when fewer), each formatted as
`"<ROLE> (<timestamp>): <content>"` with upper-cased role, in
chronological order — the oldest of the window first, the newest last;
the rows themselves carry strictly increasing clock timestamps in
insertion order. -/
theorem context_window_chronological (rs : List (Str × Str)) :
    (runAdds emptyDB rs).interactions = appendedRows 0 rs ∧
      load_context (runAdds emptyDB rs)
        = ((appendedRows 0 rs).drop (rs.length - 30)).map formatLine := by
  have h1 : (runAdds emptyDB rs).interactions = appendedRows 0 rs := by
    rw [runAdds_interactions]
    rfl
  refine ⟨h1, ?_⟩
  rw [load_context_drop, h1, appendedRows_length]

/-! ## Style transform frame (C9) -/

theorem joinNl_cons_of_ne (x : Str) (l : List Str) (h : l ≠ []) :
    joinNl (x :: l) = x ++ '\n' :: joinNl l := by
  cases l with
  | nil => exact absurd rfl h
  | cons y rest => rfl

theorem joinNl_suffix_last : ∀ (l : List Str) (x : Str),
    ∃ front, joinNl (l ++ [x]) = front ++ x := by
  intro l
  induction l with
  | nil => intro x; exact ⟨[], rfl⟩
  | cons a l ih =>
    intro x
    obtain ⟨front, hfront⟩ := ih x
    refine ⟨a ++ '\n' :: front, ?_⟩
    rw [List.cons_append, joinNl_cons_of_ne a (l ++ [x]) (by simp), hfront]
    simp

/-- C9.  For every text and profile, the styled output starts with the
profile's greeting and ends with its closing; for empty input it is
exactly the greeting, a blank line, and the closing. -/
theorem apply_style_frame (raw : Str) (profile : StyleProfile) :
    (∃ rest, apply_style raw profile = profile.greeting ++ rest) ∧
    (∃ front, apply_style raw profile = front ++ profile.closing) ∧
    (raw = [] → apply_style raw profile = profile.greeting ++ S "\n\n" ++ profile.closing) := by
  by_cases hb : pyStrip raw = []
  · have hres : apply_style raw profile
        = profile.greeting ++ S "\n\n" ++ profile.closing := by
      unfold apply_style
      rw [if_pos hb]
    refine ⟨⟨S "\n\n" ++ profile.closing, by rw [hres, List.append_assoc]⟩,
      ⟨profile.greeting ++ S "\n\n", hres⟩, fun _ => hres⟩
  · have hres : apply_style raw profile
        = joinNl ([profile.greeting, []] ++
            (let paragraphs0 := ((pySplit (S "\n\n") (pyStrip raw)).map pyStrip).filter
              (fun p => decide (p ≠ []));
             let paragraphs := if paragraphs0 = []
               then [pyReplace (S "\n") (S " ") (pyStrip raw)] else paragraphs0;
             paragraphs.map adjustPara) ++ [[], profile.closing]) := by
      unfold apply_style
      rw [if_neg hb]
    refine ⟨?_, ?_, ?_⟩
    · refine ⟨'\n' :: joinNl (([] : Str) ::
        (let paragraphs0 := ((pySplit (S "\n\n") (pyStrip raw)).map pyStrip).filter
          (fun p => decide (p ≠ []));
         let paragraphs := if paragraphs0 = []
           then [pyReplace (S "\n") (S " ") (pyStrip raw)] else paragraphs0;
         paragraphs.map adjustPara) ++ [[], profile.closing]), ?_⟩
      rw [hres]
      rfl
    · obtain ⟨front, hfront⟩ := joinNl_suffix_last
        (profile.greeting :: ([] : Str) ::
          (let paragraphs0 := ((pySplit (S "\n\n") (pyStrip raw)).map pyStrip).filter
            (fun p => decide (p ≠ []));
           let paragraphs := if paragraphs0 = []
             then [pyReplace (S "\n") (S " ") (pyStrip raw)] else paragraphs0;
           paragraphs.map adjustPara) ++ [([] : Str)])
        profile.closing
      refine ⟨front, ?_⟩
      rw [hres, ← hfront]
      congr 1
      simp
    · intro h
      exfalso
      apply hb
      rw [h]
      rfl

/-- Witness for C9 at a concrete non-empty and a concrete empty input. -/
theorem apply_style_frame_witness :
    (∃ rest, apply_style (S "Hallo Welt")
        ⟨[], [], S "Hallo zusammen", S "Viele Grüße\nEren"⟩ = S "Hallo zusammen" ++ rest) ∧
    apply_style [] ⟨[], [], S "Hallo zusammen", S "Viele Grüße\nEren"⟩
      = S "Hallo zusammen" ++ S "\n\n" ++ S "Viele Grüße\nEren" :=
  ⟨(apply_style_frame (S "Hallo Welt") ⟨[], [], S "Hallo zusammen", S "Viele Grüße\nEren"⟩).1,
   (apply_style_frame [] ⟨[], [], S "Hallo zusammen", S "Viele Grüße\nEren"⟩).2.2 rfl⟩

/-! ## Importance-1 visibility floor (C10) -/

/-- C10.  `get_relevant_facts` reads the facts through
`get_facts(minimum_importance=1)`: every returned fact text belongs to a
stored fact of importance at least 1, and the dedup index of
`refresh_facts` likewise only covers facts of importance at least 1 —
facts stored with lower importance are invisible to both. -/
theorem get_relevant_facts_min_importance (db : DB) (q : Str) (lim : Nat) (t : Str) :
    (t ∈ get_relevant_facts db q lim →
      ∃ f, f ∈ db.facts ∧ 1 ≤ f.importance ∧ f.fact = t) ∧
    (∀ s, s ∈ dedupIndex db →
      ∃ f, f ∈ db.facts ∧ 1 ≤ f.importance ∧ normalise f.fact = s) := by
  constructor
  · intro h
    obtain ⟨p, hp, hpt⟩ := List.mem_map.mp h
    have hp' : p ∈ rankedFacts db q := List.take_subset _ _ hp
    have hp'' : p ∈ (factsWithId db 1).filterMap
        (fun pr => if scoreFact (pyLowerStr q) pr.2 ≠ 0
          then some (scoreFact (pyLowerStr q) pr.2, pr.1, pr.2) else none) := by
      have := (pySortDesc_perm (fun pr : Int × Nat × Fact => pr.1)
        (scoredOf (pyLowerStr q) (factsWithId db 1))).mem_iff.mp hp'
      simpa [scoredOf] using this
    obtain ⟨pr, hpr, heq⟩ := List.mem_filterMap.mp hp''
    rcases mem_factsWithId.mp hpr with ⟨hmem, himp⟩
    by_cases hs : scoreFact (pyLowerStr q) pr.2 ≠ 0
    · rw [if_pos hs] at heq
      refine ⟨pr.2, mem_withIds_snd hmem, himp, ?_⟩
      have hpp : p = (scoreFact (pyLowerStr q) pr.2, pr.1, pr.2) := (Option.some_inj.mp heq).symm
      rw [← hpt, hpp]
    · rw [if_neg hs] at heq
      exact absurd heq (by simp)
  · intro s hs
    exact mem_dedupIndex.mp hs

/-! ## Ranker monotonicity core (C7) -/

theorem countP_erase_middle {a b : List (Int × Nat × Fact)} {x : Int × Nat × Fact} {i : Nat}
    (hx : x.2.1 = i) (ha : ∀ y ∈ a, y.2.1 ≠ i) (hb : ∀ y ∈ b, y.2.1 ≠ i)
    (Q : Int × Nat × Fact → Bool) :
    (a ++ x :: b).countP (fun y => decide (y.2.1 ≠ i) && Q y)
      = a.countP Q + b.countP Q := by
  rw [List.countP_append, List.countP_cons]
  have h1 : a.countP (fun y => decide (y.2.1 ≠ i) && Q y) = a.countP Q :=
    List.countP_congr (fun y hy => by simp [ha y hy])
  have h2 : b.countP (fun y => decide (y.2.1 ≠ i) && Q y) = b.countP Q :=
    List.countP_congr (fun y hy => by simp [hb y hy])
  rw [h1, h2]
  simp [hx]

theorem ranked_core (qL : Str) (Ar Br : List (Nat × Fact)) (i : Nat) (f f' : Fact) (k : Int)
    (hnodup : ((Br ++ (i, f) :: Ar).map Prod.fst).Nodup)
    (hfact : f'.fact = f.fact)
    (hshift : scoreFact qL f' = scoreFact qL f + k)
    (hk : 1 ≤ k)
    (hs1 : scoreFact qL f ≠ 0)
    (hs2 : scoreFact qL f' ≠ 0) :
    (i ∈ (pySortDesc (fun p => p.1)
        (scoredOf qL (pySortDesc (fun p => p.2.importance) (Br ++ (i, f) :: Ar)))).map
          (fun p => p.2.1)) ∧
    (i ∈ (pySortDesc (fun p => p.1)
        (scoredOf qL (pySortDesc (fun p => p.2.importance) (Br ++ (i, f') :: Ar)))).map
          (fun p => p.2.1)) ∧
    idxOfId (fun p => p.2.1) i (pySortDesc (fun p => p.1)
        (scoredOf qL (pySortDesc (fun p => p.2.importance) (Br ++ (i, f') :: Ar))))
      ≤ idxOfId (fun p => p.2.1) i (pySortDesc (fun p => p.1)
        (scoredOf qL (pySortDesc (fun p => p.2.importance) (Br ++ (i, f) :: Ar)))) ∧
    (∀ lim, idxOfId (fun p => p.2.1) i (pySortDesc (fun p => p.1)
        (scoredOf qL (pySortDesc (fun p => p.2.importance) (Br ++ (i, f) :: Ar)))) < lim →
      f.fact ∈ ((pySortDesc (fun p => p.1)
        (scoredOf qL (pySortDesc (fun p => p.2.importance)
          (Br ++ (i, f') :: Ar)))).take lim).map (fun p => p.2.2.fact)) := by
  have hfsts : (Br ++ (i, f) :: Ar).map Prod.fst
      = (Br.map Prod.fst) ++ i :: (Ar.map Prod.fst) := by simp
  have hmid := nodup_middle_not_mem (Br.map Prod.fst) (Ar.map Prod.fst) i
    (by rw [← hfsts]; exact hnodup)
  have hBrIds : ∀ p ∈ Br, p.1 ≠ i := by
    intro p hp he
    exact hmid.1 (he ▸ List.mem_map_of_mem Prod.fst hp)
  have hArIds : ∀ p ∈ Ar, p.1 ≠ i := by
    intro p hp he
    exact hmid.2 (he ▸ List.mem_map_of_mem Prod.fst hp)
  have hnodup2 : ((Br ++ (i, f') :: Ar).map Prod.fst).Nodup := by
    have : (Br ++ (i, f') :: Ar).map Prod.fst = (Br ++ (i, f) :: Ar).map Prod.fst := by simp
    rw [this]
    exact hnodup
  have hg1mem : (i, f) ∈ pySortDesc (fun p => p.2.importance) (Br ++ (i, f) :: Ar) :=
    (pySortDesc_perm _ _).mem_iff.mpr (List.mem_append.mpr (Or.inr (List.mem_cons_self _ _)))
  have hg2mem : (i, f') ∈ pySortDesc (fun p => p.2.importance) (Br ++ (i, f') :: Ar) :=
    (pySortDesc_perm _ _).mem_iff.mpr (List.mem_append.mpr (Or.inr (List.mem_cons_self _ _)))
  have hx1 : (scoreFact qL f, i, f)
      ∈ scoredOf qL (pySortDesc (fun p => p.2.importance) (Br ++ (i, f) :: Ar)) :=
    mem_scoredOf_intro qL hg1mem hs1
  have hx2 : (scoreFact qL f', i, f')
      ∈ scoredOf qL (pySortDesc (fun p => p.2.importance) (Br ++ (i, f') :: Ar)) :=
    mem_scoredOf_intro qL hg2mem hs2
  have hnodupm1 : ((scoredOf qL (pySortDesc (fun p => p.2.importance)
      (Br ++ (i, f) :: Ar))).map (fun p => p.2.1)).Nodup := by
    rw [idsOf_scoredOf]
    exact ((List.filter_sublist _).map Prod.fst).nodup
      ((((pySortDesc_perm (fun p => p.2.importance) (Br ++ (i, f) :: Ar)).map
        Prod.fst)).nodup_iff.mpr hnodup)
  have hnodupm2 : ((scoredOf qL (pySortDesc (fun p => p.2.importance)
      (Br ++ (i, f') :: Ar))).map (fun p => p.2.1)).Nodup := by
    rw [idsOf_scoredOf]
    exact ((List.filter_sublist _).map Prod.fst).nodup
      ((((pySortDesc_perm (fun p => p.2.importance) (Br ++ (i, f') :: Ar)).map
        Prod.fst)).nodup_iff.mpr hnodup2)
  have hr1mem : i ∈ (pySortDesc (fun p => p.1)
      (scoredOf qL (pySortDesc (fun p => p.2.importance) (Br ++ (i, f) :: Ar)))).map
        (fun p => p.2.1) :=
    List.mem_map.mpr ⟨(scoreFact qL f, i, f), (pySortDesc_perm _ _).mem_iff.mpr hx1, rfl⟩
  have hr2mem : i ∈ (pySortDesc (fun p => p.1)
      (scoredOf qL (pySortDesc (fun p => p.2.importance) (Br ++ (i, f') :: Ar)))).map
        (fun p => p.2.1) :=
    List.mem_map.mpr ⟨(scoreFact qL f', i, f'), (pySortDesc_perm _ _).mem_iff.mpr hx2, rfl⟩
  obtain ⟨a1, b1, hd1⟩ := List.append_of_mem hx1
  obtain ⟨a2, b2, hd2⟩ := List.append_of_mem hx2
  have hnod1' : ((a1 ++ (scoreFact qL f, i, f) :: b1).map (fun p => p.2.1)).Nodup := by
    rw [← hd1]
    exact hnodupm1
  have hnod2' : ((a2 ++ (scoreFact qL f', i, f') :: b2).map (fun p => p.2.1)).Nodup := by
    rw [← hd2]
    exact hnodupm2
  have hmid1 := nodup_middle_not_mem (a1.map (fun p => p.2.1))
    (b1.map (fun p => p.2.1)) i (by simpa using hnod1')
  have hmid2 := nodup_middle_not_mem (a2.map (fun p => p.2.1))
    (b2.map (fun p => p.2.1)) i (by simpa using hnod2')
  have ha1 : ∀ y ∈ a1, (y.2.1 : Nat) ≠ i := by
    intro y hy he
    exact hmid1.1 (he ▸ List.mem_map_of_mem _ hy)
  have hb1 : ∀ y ∈ b1, (y.2.1 : Nat) ≠ i := by
    intro y hy he
    exact hmid1.2 (he ▸ List.mem_map_of_mem _ hy)
  have ha2 : ∀ y ∈ a2, (y.2.1 : Nat) ≠ i := by
    intro y hy he
    exact hmid2.1 (he ▸ List.mem_map_of_mem _ hy)
  have hb2 : ∀ y ∈ b2, (y.2.1 : Nat) ≠ i := by
    intro y hy he
    exact hmid2.2 (he ▸ List.mem_map_of_mem _ hy)
  have hidx1 : idxOfId (fun p => p.2.1) i (pySortDesc (fun p => p.1)
      (scoredOf qL (pySortDesc (fun p => p.2.importance) (Br ++ (i, f) :: Ar))))
      = (scoredOf qL (pySortDesc (fun p => p.2.importance) (Br ++ (i, f) :: Ar))).countP
          (fun y => decide (scoreFact qL f < y.1))
        + a1.countP (fun y => decide (y.1 = scoreFact qL f)) := by
    have h := idxOfId_pySortDesc (fun p => p.1) (fun p => p.2.1) a1 (scoreFact qL f, i, f) b1
      (by
        intro y hy
        rcases List.mem_append.mp hy with hy | hy
        · exact ha1 y hy
        · exact hb1 y hy)
    rw [← hd1] at h
    exact h
  have hidx2 : idxOfId (fun p => p.2.1) i (pySortDesc (fun p => p.1)
      (scoredOf qL (pySortDesc (fun p => p.2.importance) (Br ++ (i, f') :: Ar))))
      = (scoredOf qL (pySortDesc (fun p => p.2.importance) (Br ++ (i, f') :: Ar))).countP
          (fun y => decide (scoreFact qL f' < y.1))
        + a2.countP (fun y => decide (y.1 = scoreFact qL f')) := by
    have h := idxOfId_pySortDesc (fun p => p.1) (fun p => p.2.1) a2 (scoreFact qL f', i, f') b2
      (by
        intro y hy
        rcases List.mem_append.mp hy with hy | hy
        · exact ha2 y hy
        · exact hb2 y hy)
    rw [← hd2] at h
    exact h
  have e1 : (scoredOf qL (pySortDesc (fun p => p.2.importance) (Br ++ (i, f') :: Ar))).countP
        (fun y => decide (scoreFact qL f' < y.1))
      = a2.countP (fun y => decide (scoreFact qL f' < y.1))
        + b2.countP (fun y => decide (scoreFact qL f' < y.1)) := by
    rw [hd2, List.countP_append, List.countP_cons]
    simp
  have e2 : a2.countP (fun y => decide (scoreFact qL f' < y.1))
        + a2.countP (fun y => decide (y.1 = scoreFact qL f'))
      = a2.countP (fun y => decide (scoreFact qL f' ≤ y.1)) :=
    countP_lt_add_countP_eq (fun y => y.1) (scoreFact qL f') a2
  have e3 : b2.countP (fun y => decide (scoreFact qL f' < y.1))
      ≤ b2.countP (fun y => decide (scoreFact qL f' ≤ y.1)) := by
    apply List.countP_mono_left
    intro y _ h
    simp only [decide_eq_true_eq] at h ⊢
    omega
  have e4 : (scoredOf qL (pySortDesc (fun p => p.2.importance) (Br ++ (i, f') :: Ar))).countP
        (fun y => decide (y.2.1 ≠ i) && decide (scoreFact qL f' ≤ y.1))
      = a2.countP (fun y => decide (scoreFact qL f' ≤ y.1))
        + b2.countP (fun y => decide (scoreFact qL f' ≤ y.1)) := by
    rw [hd2]
    exact countP_erase_middle
      (show ((scoreFact qL f', i, f') : Int × Nat × Fact).2.1 = i from rfl) ha2 hb2 _
  have etrans : (scoredOf qL (pySortDesc (fun p => p.2.importance) (Br ++ (i, f') :: Ar))).countP
        (fun y => decide (y.2.1 ≠ i) && decide (scoreFact qL f' ≤ y.1))
      = (scoredOf qL (pySortDesc (fun p => p.2.importance) (Br ++ (i, f) :: Ar))).countP
        (fun y => decide (y.2.1 ≠ i) && decide (scoreFact qL f' ≤ y.1)) := by
    rw [countP_scoredOf, countP_scoredOf,
      (pySortDesc_perm (fun p => p.2.importance) (Br ++ (i, f') :: Ar)).countP_eq,
      (pySortDesc_perm (fun p => p.2.importance) (Br ++ (i, f) :: Ar)).countP_eq,
      List.countP_append, List.countP_append, List.countP_cons, List.countP_cons]
    simp
  have emono : (scoredOf qL (pySortDesc (fun p => p.2.importance) (Br ++ (i, f) :: Ar))).countP
        (fun y => decide (y.2.1 ≠ i) && decide (scoreFact qL f' ≤ y.1))
      ≤ (scoredOf qL (pySortDesc (fun p => p.2.importance) (Br ++ (i, f) :: Ar))).countP
        (fun y => decide (scoreFact qL f < y.1)) := by
    apply List.countP_mono_left
    intro y _ h
    simp only [Bool.and_eq_true, decide_eq_true_eq] at h ⊢
    omega
  have emain : idxOfId (fun p => p.2.1) i (pySortDesc (fun p => p.1)
      (scoredOf qL (pySortDesc (fun p => p.2.importance) (Br ++ (i, f') :: Ar))))
      ≤ idxOfId (fun p => p.2.1) i (pySortDesc (fun p => p.1)
        (scoredOf qL (pySortDesc (fun p => p.2.importance) (Br ++ (i, f) :: Ar)))) := by
    omega
  refine ⟨hr1mem, hr2mem, emain, ?_⟩
  intro lim hlim
  have hx2r : (scoreFact qL f', i, f') ∈ pySortDesc (fun p => p.1)
      (scoredOf qL (pySortDesc (fun p => p.2.importance) (Br ++ (i, f') :: Ar))) :=
    (pySortDesc_perm _ _).mem_iff.mpr hx2
  obtain ⟨u, v, hruv⟩ := List.append_of_mem hx2r
  have hnodr2 : ((pySortDesc (fun p => p.1)
      (scoredOf qL (pySortDesc (fun p => p.2.importance) (Br ++ (i, f') :: Ar)))).map
        (fun p => p.2.1)).Nodup :=
    (((pySortDesc_perm (fun p => p.1) _).map _)).nodup_iff.mpr hnodupm2
  have hmidr := nodup_middle_not_mem (u.map (fun p => p.2.1))
    (v.map (fun p => p.2.1)) i (by rw [hruv] at hnodr2; simpa using hnodr2)
  have hu : ∀ y ∈ u, (y.2.1 : Nat) ≠ i := by
    intro y hy he
    exact hmidr.1 (he ▸ List.mem_map_of_mem _ hy)
  have hidxu : idxOfId (fun p => p.2.1) i (pySortDesc (fun p => p.1)
      (scoredOf qL (pySortDesc (fun p => p.2.importance) (Br ++ (i, f') :: Ar))))
      = u.length := by
    rw [hruv]
    exact idxOfId_front _ u (scoreFact qL f', i, f') v hu rfl
  have hul : u.length < lim := by omega
  have hmemtake : (scoreFact qL f', i, f') ∈ (pySortDesc (fun p => p.1)
      (scoredOf qL (pySortDesc (fun p => p.2.importance) (Br ++ (i, f') :: Ar)))).take lim := by
    rw [hruv, List.take_append_eq_append_take]
    apply List.mem_append.mpr
    right
    obtain ⟨m, hm⟩ : ∃ m, lim - u.length = m + 1 := ⟨lim - u.length - 1, by omega⟩
    rw [hm, List.take_succ_cons]
    exact List.mem_cons_self _ _
  exact List.mem_map.mpr ⟨(scoreFact qL f', i, f'), hmemtake, hfact⟩

theorem filter_withIds_middle (pre post : List Fact) (g : Fact) (hg : 1 ≤ g.importance) :
    (withIds 0 (pre ++ g :: post)).filter (fun p => decide ((1 : Int) ≤ p.2.importance))
      = (withIds 0 pre).filter (fun p => decide ((1 : Int) ≤ p.2.importance))
        ++ (pre.length, g)
          :: (withIds (pre.length + 1) post).filter
            (fun p => decide ((1 : Int) ≤ p.2.importance)) := by
  rw [withIds_append]
  simp only [Nat.zero_add]
  rw [List.filter_append]
  congr 1
  rw [withIds, List.filter_cons]
  simp [hg]

theorem fst_nodup_filtered (facts : List Fact) :
    (((withIds 0 facts).filter
        (fun p => decide ((1 : Int) ≤ p.2.importance))).map Prod.fst).Nodup :=
  ((List.filter_sublist _).map Prod.fst).nodup
    (by rw [withIds_map_fst]; exact List.nodup_range' 0 facts.length)

theorem factsWithId_middle (ints : List Interaction) (clock : Nat)
    (pre post : List Fact) (g : Fact) (hg : 1 ≤ g.importance) :
    factsWithId ⟨ints, pre ++ g :: post, clock⟩ 1
      = pySortDesc (fun p => p.2.importance)
          (((withIds (pre.length + 1) post).filter
              (fun p => decide ((1 : Int) ≤ p.2.importance))).reverse
            ++ (pre.length, g)
              :: ((withIds 0 pre).filter
                (fun p => decide ((1 : Int) ≤ p.2.importance))).reverse) := by
  show pySortDesc _ (((withIds 0 (pre ++ g :: post)).filter _).reverse) = _
  rw [filter_withIds_middle pre post g hg]
  congr 1
  simp [List.reverse_append]

/-- C7.  For a fixed query and fixed other facts, raising a single
fact's importance (all else equal) never pushes that fact to a later
rank: it stays in the ranked list, its rank index never increases, and
whenever it was inside the returned window before the raise, its text is
still returned by `get_relevant_facts` after the raise. -/
theorem get_relevant_facts_importance_monotone
    (ints : List Interaction) (clock : Nat) (pre post : List Fact) (f : Fact)
    (k : Int) (q : Str) (lim : Nat) (hk : 1 ≤ k) (hf : 1 ≤ f.importance) :
    (pre.length ∈ (rankedFacts ⟨ints, pre ++ f :: post, clock⟩ q).map (fun p => p.2.1)) ∧
    (pre.length ∈ (rankedFacts ⟨ints,
        pre ++ { f with importance := f.importance + k } :: post, clock⟩ q).map
          (fun p => p.2.1)) ∧
    idxOfId (fun p => p.2.1) pre.length
        (rankedFacts ⟨ints, pre ++ { f with importance := f.importance + k } :: post, clock⟩ q)
      ≤ idxOfId (fun p => p.2.1) pre.length
        (rankedFacts ⟨ints, pre ++ f :: post, clock⟩ q) ∧
    (idxOfId (fun p => p.2.1) pre.length
        (rankedFacts ⟨ints, pre ++ f :: post, clock⟩ q) < lim →
      f.fact ∈ get_relevant_facts
        ⟨ints, pre ++ { f with importance := f.importance + k } :: post, clock⟩ q lim) := by
  have hf' : 1 ≤ ({ f with importance := f.importance + k } : Fact).importance := by
    simp only []
    omega
  have hshift := scoreFact_shift (pyLowerStr q) f k
  have hge := scoreFact_ge_importance (pyLowerStr q) f
  have hs1 : scoreFact (pyLowerStr q) f ≠ 0 := by omega
  have hs2 : scoreFact (pyLowerStr q) { f with importance := f.importance + k } ≠ 0 := by
    rw [hshift]
    omega
  have h1 := factsWithId_middle ints clock pre post f hf
  have h2 := factsWithId_middle ints clock pre post { f with importance := f.importance + k } hf'
  have hnodup : ((((withIds (pre.length + 1) post).filter
        (fun p => decide ((1 : Int) ≤ p.2.importance))).reverse
      ++ (pre.length, f) :: ((withIds 0 pre).filter
        (fun p => decide ((1 : Int) ≤ p.2.importance))).reverse).map Prod.fst).Nodup := by
    have hsh : ((withIds (pre.length + 1) post).filter
          (fun p => decide ((1 : Int) ≤ p.2.importance))).reverse
        ++ (pre.length, f) :: ((withIds 0 pre).filter
          (fun p => decide ((1 : Int) ≤ p.2.importance))).reverse
        = ((withIds 0 pre).filter (fun p => decide ((1 : Int) ≤ p.2.importance))
            ++ (pre.length, f)
              :: (withIds (pre.length + 1) post).filter
                (fun p => decide ((1 : Int) ≤ p.2.importance))).reverse := by
      simp
    rw [hsh, ← filter_withIds_middle pre post f hf, List.map_reverse, List.nodup_reverse]
    exact fst_nodup_filtered (pre ++ f :: post)
  have hcore := ranked_core (pyLowerStr q)
    (((withIds 0 pre).filter (fun p => decide ((1 : Int) ≤ p.2.importance))).reverse)
    (((withIds (pre.length + 1) post).filter
      (fun p => decide ((1 : Int) ≤ p.2.importance))).reverse)
    pre.length f { f with importance := f.importance + k } k hnodup rfl hshift hk hs1 hs2
  have hr1 : rankedFacts ⟨ints, pre ++ f :: post, clock⟩ q
      = pySortDesc (fun p => p.1) (scoredOf (pyLowerStr q)
          (pySortDesc (fun p => p.2.importance)
            (((withIds (pre.length + 1) post).filter
                (fun p => decide ((1 : Int) ≤ p.2.importance))).reverse
              ++ (pre.length, f)
                :: ((withIds 0 pre).filter
                  (fun p => decide ((1 : Int) ≤ p.2.importance))).reverse))) := by
    unfold rankedFacts
    rw [h1]
  have hr2 : rankedFacts ⟨ints, pre ++ { f with importance := f.importance + k } :: post, clock⟩ q
      = pySortDesc (fun p => p.1) (scoredOf (pyLowerStr q)
          (pySortDesc (fun p => p.2.importance)
            (((withIds (pre.length + 1) post).filter
                (fun p => decide ((1 : Int) ≤ p.2.importance))).reverse
              ++ (pre.length, { f with importance := f.importance + k })
                :: ((withIds 0 pre).filter
                  (fun p => decide ((1 : Int) ≤ p.2.importance))).reverse))) := by
    unfold rankedFacts
    rw [h2]
  refine ⟨?_, ?_, ?_, ?_⟩
  · rw [hr1]
    exact hcore.1
  · rw [hr2]
    exact hcore.2.1
  · rw [hr1, hr2]
    exact hcore.2.2.1
  · intro hlt
    rw [hr1] at hlt
    show f.fact ∈ ((rankedFacts _ q).take lim).map (fun p => p.2.2.fact)
    rw [hr2]
    exact hcore.2.2.2 lim hlt

/-- Witness for C7 at a concrete fact whose importance is raised from 1
to 2. -/
theorem get_relevant_facts_importance_monotone_witness :
    ((0 : Nat) ∈ (rankedFacts ⟨[], [⟨S "t", S "heuristic", S "CAD", 1⟩], 0⟩ (S "CAD")).map
        (fun p => p.2.1)) ∧
    ((0 : Nat) ∈ (rankedFacts ⟨[], [⟨S "t", S "heuristic", S "CAD", 1 + 1⟩], 0⟩ (S "CAD")).map
        (fun p => p.2.1)) ∧
    idxOfId (fun p => p.2.1) 0 (rankedFacts ⟨[], [⟨S "t", S "heuristic", S "CAD", 1 + 1⟩], 0⟩
        (S "CAD"))
      ≤ idxOfId (fun p => p.2.1) 0 (rankedFacts ⟨[], [⟨S "t", S "heuristic", S "CAD", 1⟩], 0⟩
        (S "CAD")) ∧
    (idxOfId (fun p => p.2.1) 0 (rankedFacts ⟨[], [⟨S "t", S "heuristic", S "CAD", 1⟩], 0⟩
        (S "CAD")) < 5 →
      S "CAD" ∈ get_relevant_facts ⟨[], [⟨S "t", S "heuristic", S "CAD", 1 + 1⟩], 0⟩
        (S "CAD") 5) :=
  get_relevant_facts_importance_monotone [] 0 [] [] ⟨S "t", S "heuristic", S "CAD", 1⟩ 1
    (S "CAD") 5 (by norm_num) (by norm_num)

/-- Witness for C10: a concrete importance-1 fact that is returned and
accounted for. -/
theorem get_relevant_facts_min_importance_witness :
    S "CAD muss" ∈ get_relevant_facts ⟨[], [⟨S "t", S "heuristic", S "CAD muss", 1⟩], 1⟩
        (S "cad") 5 ∧
    (∃ f, f ∈ (⟨[], [⟨S "t", S "heuristic", S "CAD muss", 1⟩], 1⟩ : DB).facts ∧
      1 ≤ f.importance ∧ f.fact = S "CAD muss") :=
  ⟨by decide,
   (get_relevant_facts_min_importance ⟨[], [⟨S "t", S "heuristic", S "CAD muss", 1⟩], 1⟩
     (S "cad") 5 (S "CAD muss")).1 (by decide)⟩

end ErenAssist
